import Mathlib

/-!
Verification of the TF2JS coordinate-frame transform tree.

This file gives a shallow embedding, over exact rational arithmetic, of the
`TF2JS` transform-tree subsystem (class `TF2JS`, class `Frame`, and the
THREE.js matrix operations it invokes: `Matrix4.makeRotationFromQuaternion`,
`Matrix4.setPosition`, `Matrix4.multiplyMatrices`, `Matrix4.invert`,
`Matrix4.decompose`), together with theorems settling the specification
claims about it.

Modelling conventions:
* JavaScript `number` is embedded as `ℚ`; all claims are settled over exact
  arithmetic (the spec states the floating-point versions "within tolerance").
* The JS `Map<string, Frame>` is an insertion-ordered association list
  `List (String × Frame)`; `Map.get/set/has` become `List.lookup` and
  appending.  Frames are identified by their unique map key, so the JS
  object-reference comparisons (`current !== commonAncestor`,
  `this.rootFrame === childFrame`) become id equality.
* `Frame.children` is maintained by the source purely as a redundant
  back-pointer list (kept consistent with `parent` by `Frame.setParent`) and
  is read by none of the operations the claims concern, so the embedding
  keeps only the `parent` edge and `transformToParent`.
* The `while (current) { ...; current = current.parent }` walks of
  `findTransform` terminate in JS exactly when the parent chain is acyclic;
  the embedding runs them on fuel `frames.length + 1`, which suffices on
  every acyclic (tree/forest) state.  Fuel exhaustion — i.e. divergence of
  the JS loop on a cyclic state — is mapped to `none`.
* `Matrix4.decompose` extracts the translation column exactly, divides the
  three rotation columns by their (floating-point) Euclidean lengths and
  converts the result to a quaternion.  For the rigid matrices produced from
  unit quaternions those lengths are exactly 1, so the embedding returns the
  rotation as the raw upper-left 3×3 block; the identity quaternion
  `(0,0,0,1)` corresponds exactly to the identity block (and THREE's
  `Quaternion.setFromRotationMatrix` maps the identity block back to
  `(0,0,0,1)` exactly).
-/

/-- 3-vector over ℚ (THREE.Vector3 with exact coordinates). -/
@[ext] structure Vec3 where
  x : ℚ
  y : ℚ
  z : ℚ
deriving DecidableEq

/-- Quaternion over ℚ (THREE.Quaternion with exact coordinates). -/
@[ext] structure Quat where
  x : ℚ
  y : ℚ
  z : ℚ
  w : ℚ
deriving DecidableEq

/-- A stored rigid-body transform: translation + rotation quaternion
(the `Transform` interface of the source). -/
@[ext] structure TransformQ where
  translation : Vec3
  rotation : Quat
deriving DecidableEq

def vzero : Vec3 := ⟨0, 0, 0⟩

def vadd (a b : Vec3) : Vec3 := ⟨a.x + b.x, a.y + b.y, a.z + b.z⟩

def vsub (a b : Vec3) : Vec3 := ⟨a.x - b.x, a.y - b.y, a.z - b.z⟩

/-- The identity quaternion `(0,0,0,1)` (THREE.Quaternion's default). -/
def qId : Quat := ⟨0, 0, 0, 1⟩

/-- Squared norm of a quaternion; a unit quaternion has `qNormSq q = 1`. -/
def qNormSq (q : Quat) : ℚ := q.x ^ 2 + q.y ^ 2 + q.z ^ 2 + q.w ^ 2

/-- 3×3 matrix over ℚ, row-major fields `a‹row›‹col›`. -/
@[ext] structure Mat3 where
  a00 : ℚ
  a01 : ℚ
  a02 : ℚ
  a10 : ℚ
  a11 : ℚ
  a12 : ℚ
  a20 : ℚ
  a21 : ℚ
  a22 : ℚ
deriving DecidableEq

def mat3Id : Mat3 := ⟨1, 0, 0, 0, 1, 0, 0, 0, 1⟩

def mat3Mul (p q : Mat3) : Mat3 :=
  ⟨p.a00 * q.a00 + p.a01 * q.a10 + p.a02 * q.a20,
   p.a00 * q.a01 + p.a01 * q.a11 + p.a02 * q.a21,
   p.a00 * q.a02 + p.a01 * q.a12 + p.a02 * q.a22,
   p.a10 * q.a00 + p.a11 * q.a10 + p.a12 * q.a20,
   p.a10 * q.a01 + p.a11 * q.a11 + p.a12 * q.a21,
   p.a10 * q.a02 + p.a11 * q.a12 + p.a12 * q.a22,
   p.a20 * q.a00 + p.a21 * q.a10 + p.a22 * q.a20,
   p.a20 * q.a01 + p.a21 * q.a11 + p.a22 * q.a21,
   p.a20 * q.a02 + p.a21 * q.a12 + p.a22 * q.a22⟩

def mat3Apply (m : Mat3) (v : Vec3) : Vec3 :=
  ⟨m.a00 * v.x + m.a01 * v.y + m.a02 * v.z,
   m.a10 * v.x + m.a11 * v.y + m.a12 * v.z,
   m.a20 * v.x + m.a21 * v.y + m.a22 * v.z⟩

/-- 4×4 homogeneous matrix over ℚ, row-major fields `e‹row›‹col›`
(THREE.Matrix4; THREE stores the elements column-major, `te[4*c+r] = e‹r›‹c›`). -/
@[ext] structure M4 where
  e00 : ℚ
  e01 : ℚ
  e02 : ℚ
  e03 : ℚ
  e10 : ℚ
  e11 : ℚ
  e12 : ℚ
  e13 : ℚ
  e20 : ℚ
  e21 : ℚ
  e22 : ℚ
  e23 : ℚ
  e30 : ℚ
  e31 : ℚ
  e32 : ℚ
  e33 : ℚ
deriving DecidableEq

def idM4 : M4 := ⟨1, 0, 0, 0, 0, 1, 0, 0, 0, 0, 1, 0, 0, 0, 0, 1⟩

def zeroM4 : M4 := ⟨0, 0, 0, 0, 0, 0, 0, 0, 0, 0, 0, 0, 0, 0, 0, 0⟩

/-- Source `Matrix4.multiplyMatrices(a, b)`: the matrix product `a * b`
(THREE matrices act on column vectors). -/
def mulM4 (a b : M4) : M4 :=
  ⟨a.e00 * b.e00 + a.e01 * b.e10 + a.e02 * b.e20 + a.e03 * b.e30,
   a.e00 * b.e01 + a.e01 * b.e11 + a.e02 * b.e21 + a.e03 * b.e31,
   a.e00 * b.e02 + a.e01 * b.e12 + a.e02 * b.e22 + a.e03 * b.e32,
   a.e00 * b.e03 + a.e01 * b.e13 + a.e02 * b.e23 + a.e03 * b.e33,
   a.e10 * b.e00 + a.e11 * b.e10 + a.e12 * b.e20 + a.e13 * b.e30,
   a.e10 * b.e01 + a.e11 * b.e11 + a.e12 * b.e21 + a.e13 * b.e31,
   a.e10 * b.e02 + a.e11 * b.e12 + a.e12 * b.e22 + a.e13 * b.e32,
   a.e10 * b.e03 + a.e11 * b.e13 + a.e12 * b.e23 + a.e13 * b.e33,
   a.e20 * b.e00 + a.e21 * b.e10 + a.e22 * b.e20 + a.e23 * b.e30,
   a.e20 * b.e01 + a.e21 * b.e11 + a.e22 * b.e21 + a.e23 * b.e31,
   a.e20 * b.e02 + a.e21 * b.e12 + a.e22 * b.e22 + a.e23 * b.e32,
   a.e20 * b.e03 + a.e21 * b.e13 + a.e22 * b.e23 + a.e23 * b.e33,
   a.e30 * b.e00 + a.e31 * b.e10 + a.e32 * b.e20 + a.e33 * b.e30,
   a.e30 * b.e01 + a.e31 * b.e11 + a.e32 * b.e21 + a.e33 * b.e31,
   a.e30 * b.e02 + a.e31 * b.e12 + a.e32 * b.e22 + a.e33 * b.e32,
   a.e30 * b.e03 + a.e31 * b.e13 + a.e32 * b.e23 + a.e33 * b.e33⟩

/-- The rotation matrix THREE builds from a quaternion
(`Matrix4.makeRotationFromQuaternion` = `compose((0,0,0), q, (1,1,1))`);
the formula does not normalise `q`. -/
def rotM3 (q : Quat) : Mat3 :=
  ⟨1 - 2 * (q.y * q.y + q.z * q.z), 2 * (q.x * q.y - q.w * q.z), 2 * (q.x * q.z + q.w * q.y),
   2 * (q.x * q.y + q.w * q.z), 1 - 2 * (q.x * q.x + q.z * q.z), 2 * (q.y * q.z - q.w * q.x),
   2 * (q.x * q.z - q.w * q.y), 2 * (q.y * q.z + q.w * q.x), 1 - 2 * (q.x * q.x + q.y * q.y)⟩

/-- Affine 4×4 matrix from a 3×3 block and a translation column
(bottom row `0 0 0 1`). -/
def affM4 (m : Mat3) (t : Vec3) : M4 :=
  ⟨m.a00, m.a01, m.a02, t.x,
   m.a10, m.a11, m.a12, t.y,
   m.a20, m.a21, m.a22, t.z,
   0, 0, 0, 1⟩

/-- The matrix `addTransform`/`findTransform` build for one tree link:
`matrix.makeRotationFromQuaternion(transform.rotation)` followed by
`matrix.setPosition(transform.translation)`. -/
def linkM4 (t : TransformQ) : M4 := affM4 (rotM3 t.rotation) t.translation

/-- Pure translation matrix (identity rotation block). -/
def transM4 (v : Vec3) : M4 := affM4 mat3Id v

/-- Determinant of a 3×3 matrix given by its nine entries. -/
def det3v (a b c d e f g h i : ℚ) : ℚ :=
  a * (e * i - f * h) - b * (d * i - f * g) + c * (d * h - e * g)

/-- Cofactor matrix of a 4×4 matrix: `(m4cof m).e‹r›‹c›` is `(-1)^(r+c)`
times the determinant of the minor obtained by deleting row `r`, column `c`. -/
def m4cof (m : M4) : M4 :=
  ⟨det3v m.e11 m.e12 m.e13 m.e21 m.e22 m.e23 m.e31 m.e32 m.e33,
   -det3v m.e10 m.e12 m.e13 m.e20 m.e22 m.e23 m.e30 m.e32 m.e33,
   det3v m.e10 m.e11 m.e13 m.e20 m.e21 m.e23 m.e30 m.e31 m.e33,
   -det3v m.e10 m.e11 m.e12 m.e20 m.e21 m.e22 m.e30 m.e31 m.e32,
   -det3v m.e01 m.e02 m.e03 m.e21 m.e22 m.e23 m.e31 m.e32 m.e33,
   det3v m.e00 m.e02 m.e03 m.e20 m.e22 m.e23 m.e30 m.e32 m.e33,
   -det3v m.e00 m.e01 m.e03 m.e20 m.e21 m.e23 m.e30 m.e31 m.e33,
   det3v m.e00 m.e01 m.e02 m.e20 m.e21 m.e22 m.e30 m.e31 m.e32,
   det3v m.e01 m.e02 m.e03 m.e11 m.e12 m.e13 m.e31 m.e32 m.e33,
   -det3v m.e00 m.e02 m.e03 m.e10 m.e12 m.e13 m.e30 m.e32 m.e33,
   det3v m.e00 m.e01 m.e03 m.e10 m.e11 m.e13 m.e30 m.e31 m.e33,
   -det3v m.e00 m.e01 m.e02 m.e10 m.e11 m.e12 m.e30 m.e31 m.e32,
   -det3v m.e01 m.e02 m.e03 m.e11 m.e12 m.e13 m.e21 m.e22 m.e23,
   det3v m.e00 m.e02 m.e03 m.e10 m.e12 m.e13 m.e20 m.e22 m.e23,
   -det3v m.e00 m.e01 m.e03 m.e10 m.e11 m.e13 m.e20 m.e21 m.e23,
   det3v m.e00 m.e01 m.e02 m.e10 m.e11 m.e12 m.e20 m.e21 m.e22⟩

/-- Determinant of a 4×4 matrix (Laplace expansion along the first row;
THREE's `Matrix4.determinant`/`invert` compute the same polynomial). -/
def det4 (m : M4) : ℚ :=
  m.e00 * (m4cof m).e00 + m.e01 * (m4cof m).e01 +
    m.e02 * (m4cof m).e02 + m.e03 * (m4cof m).e03

/-- Source `Matrix4.invert`: the exact inverse (adjugate over determinant) when the
determinant is nonzero; THREE sets every element to 0 when `det === 0`. -/
def m4invert (m : M4) : M4 :=
  if det4 m = 0 then zeroM4 else
    let d := det4 m
    let c := m4cof m
    ⟨c.e00 / d, c.e10 / d, c.e20 / d, c.e30 / d,
     c.e01 / d, c.e11 / d, c.e21 / d, c.e31 / d,
     c.e02 / d, c.e12 / d, c.e22 / d, c.e32 / d,
     c.e03 / d, c.e13 / d, c.e23 / d, c.e33 / d⟩

/-- The value `findTransform` returns: the decomposition of the accumulated
matrix into its translation column and its rotation block
(`Matrix4.decompose`; see the header note — for the rigid matrices at hand
the scale factors are exactly 1 and the quaternion THREE extracts represents
exactly this block, with `(0,0,0,1)` ↔ `mat3Id`). -/
@[ext] structure TransformM where
  translation : Vec3
  rotation : Mat3
deriving DecidableEq

def decomposeTM (m : M4) : TransformM :=
  ⟨⟨m.e03, m.e13, m.e23⟩,
   ⟨m.e00, m.e01, m.e02, m.e10, m.e11, m.e12, m.e20, m.e21, m.e22⟩⟩

/-- The identity rigid-body transform: zero translation, identity rotation. -/
def idTM : TransformM := ⟨vzero, mat3Id⟩

/-- Composition of two returned rigid-body transforms,
`(composeTM u v) p = u (v p)`. -/
def composeTM (u v : TransformM) : TransformM :=
  ⟨vadd u.translation (mat3Apply u.rotation v.translation),
   mat3Mul u.rotation v.rotation⟩

/-- Apply a returned rigid-body transform to a point. -/
def applyTM (u : TransformM) (v : Vec3) : Vec3 :=
  vadd (mat3Apply u.rotation v) u.translation

/-- Bottom row `0 0 0 1`: every matrix the `findTransform` pipeline builds
from link transforms is of this shape. -/
def AffineM4 (m : M4) : Prop :=
  m.e30 = 0 ∧ m.e31 = 0 ∧ m.e32 = 0 ∧ m.e33 = 1

/-- Source `Frame`: the per-frame record.  `parent` holds the parent frame's map
key (the JS field holds an object reference; keys are unique so the two are
interchangeable), `transformToParent` the stored link transform.  Both are
`null` on creation and are always set together by `Frame.setParent`.
The redundant `children` back-pointer list is omitted (see header). -/
structure Frame where
  parent : Option String
  transformToParent : Option TransformQ
deriving DecidableEq

/-- The mutable state of the `TF2JS` singleton that the claims concern:
the frame map and the root pointer.  (`changeCallbacks` is modelled
separately with the notification layer; the connection fields belong to the
out-of-scope bridge adapter.) -/
structure TF2State where
  frames : List (String × Frame)
  rootFrame : Option String
deriving DecidableEq

def emptyState : TF2State := ⟨[], none⟩

/-- The `stamp` of an incoming message header (never read by the store). -/
structure Stamp where
  sec : Int
  nsec : Int
deriving DecidableEq

structure Header where
  frame_id : String
  stamp : Stamp
deriving DecidableEq

/-- Source `TransformStamped`: one entry of an incoming `/tf` batch. -/
structure TransformStamped where
  header : Header
  child_frame_id : String
  transform : TransformQ
deriving DecidableEq

/-- Source `getFrames()`: the list of frame ids (JS `Map` keys, insertion order). -/
def getFrames (s : TF2State) : List String := s.frames.map Prod.fst

/-- Source `hasFrame(frameId)`. -/
def hasFrame (s : TF2State) (frameId : String) : Bool :=
  (s.frames.lookup frameId).isSome

/-- The parent edge of a frame id (`none` for a rootless or unknown id). -/
def parentOf (s : TF2State) (fid : String) : Option String :=
  match s.frames.lookup fid with
  | some f => f.parent
  | none => none

/-- Source `getOrCreateFrame(frameId)`: returns the existing frame or registers a
new parentless one; the first frame ever created becomes the root. -/
def getOrCreateFrame (s : TF2State) (frameId : String) : TF2State :=
  match s.frames.lookup frameId with
  | some _ => s
  | none =>
    { frames := s.frames ++ [(frameId, ⟨none, none⟩)],
      rootFrame := match s.rootFrame with
        | none => some frameId
        | some r => some r }

/-- Source `Frame.setParent(parent, transform)` on the frame keyed `cid`: sets the
parent edge and the stored transform.  (The source also splices `cid` out of
its old parent's `children` array and pushes it onto the new parent's; the
embedding carries no `children`.) -/
def setParentState (s : TF2State) (cid pid : String) (t : TransformQ) : TF2State :=
  { s with frames := s.frames.map (fun e =>
      if e.1 = cid then (e.1, ⟨some pid, some t⟩) else e) }

/-- Source `addTransform(transformStamped)`: resolve/create both frames, reparent
the child, and move the root pointer to the parent when the child was root. -/
def addTransform (s : TF2State) (ts : TransformStamped) : TF2State :=
  let parentFrameId := ts.header.frame_id
  let childFrameId := ts.child_frame_id
  let s1 := getOrCreateFrame s parentFrameId
  let s2 := getOrCreateFrame s1 childFrameId
  let s3 := setParentState s2 childFrameId parentFrameId ts.transform
  if s3.rootFrame = some childFrameId then
    { s3 with rootFrame := some parentFrameId }
  else s3

/-- The state part of `addTransforms(transforms)` (the loop body; the
notification is modelled with the callback layer below). -/
def addTransformsState (s : TF2State) (l : List TransformStamped) : TF2State :=
  l.foldl addTransform s

/-- Source `clear()`: state part (the notification is modelled separately). -/
def clearState (_s : TF2State) : TF2State := ⟨[], none⟩

/-- One `while (current) { pathToRoot.push(current); current = current.parent }`
walk, on fuel.  `some l` is the collected path (ids in walk order); `none`
models fuel exhaustion, i.e. divergence of the JS loop on a cyclic chain. -/
def pathToRootAux (s : TF2State) : Nat → Option String → List String → Option (List String)
  | _, none, acc => some acc.reverse
  | 0, some _, _ => none
  | n + 1, some fid, acc => pathToRootAux s n (parentOf s fid) (fid :: acc)

/-- Path from `fid` to the root of its component.  Fuel `frames.length + 1`
suffices on every acyclic state (a terminating walk visits pairwise-distinct
frames). -/
def pathToRoot (s : TF2State) (fid : String) : Option (List String) :=
  pathToRootAux s (s.frames.length + 1) (some fid) []

/-- One `while (current && current !== commonAncestor)` collection loop of
`findTransform`: walk up from `fid` until `anc`, collecting each non-null
`transformToParent` in walk order (`sourceToCommon` uses exactly this order;
`commonToTarget` is its reverse, built with `unshift`). -/
def collectUpAux (s : TF2State) (anc : String) :
    Nat → String → List TransformQ → List TransformQ
  | 0, _, acc => acc.reverse
  | n + 1, fid, acc =>
    if fid = anc then acc.reverse
    else
      match s.frames.lookup fid with
      | none => acc.reverse
      | some fr =>
        let acc' := match fr.transformToParent with
          | some t => t :: acc
          | none => acc
        match fr.parent with
        | some p => collectUpAux s anc n p acc'
        | none => acc'.reverse

def collectUp (s : TF2State) (fid anc : String) : List TransformQ :=
  collectUpAux s anc (s.frames.length + 1) fid []

/-- Steps 1–3 of `findTransform`: look both frames up, walk both paths to
the root, and pick the common ancestor
(`pathToRoot.find((frame) => targetPath.includes(frame))`), returning it
with the two collected chains (`sourceToCommon`, walk order, and
`commonToTarget` before its reversal). -/
def chains (s : TF2State) (targetFrame sourceFrame : String) :
    Option (String × List TransformQ × List TransformQ) :=
  match s.frames.lookup targetFrame, s.frames.lookup sourceFrame with
  | some _, some _ =>
    match pathToRoot s sourceFrame, pathToRoot s targetFrame with
    | some pathS, some pathT =>
      match pathS.find? (fun f => pathT.contains f) with
      | none => none
      | some anc =>
        some (anc, collectUp s sourceFrame anc, collectUp s targetFrame anc)
    | _, _ => none
  | _, _ => none

/-- Source `findTransform(targetFrame, sourceFrame)`.  The accumulator starts as
the identity matrix (`makeTranslation(0,0,0)` overwritten by
`makeRotationFromQuaternion(identity)`), is right-multiplied by each
`sourceToCommon` link matrix in collection order, then right-multiplied by
the inverse of each `commonToTarget` link matrix (that list being the
reverse of the target-side walk), and is finally decomposed. -/
def findTransform (s : TF2State) (targetFrame sourceFrame : String) :
    Option TransformM :=
  match chains s targetFrame sourceFrame with
  | none => none
  | some (_anc, sourceToCommon, targetChain) =>
    let m1 := sourceToCommon.foldl (fun acc tr => mulM4 acc (linkM4 tr)) idM4
    let m2 := targetChain.reverse.foldl
      (fun acc tr => mulM4 acc (m4invert (linkM4 tr))) m1
    some (decomposeTM m2)

/-- Product of a list of 4×4 matrices, as `findTransform` accumulates it. -/
def listProdM4 (l : List M4) : M4 := l.foldl mulM4 idM4

/-- Scalar multiple of a 4×4 matrix. -/
def smulM4 (c : ℚ) (m : M4) : M4 :=
  ⟨c * m.e00, c * m.e01, c * m.e02, c * m.e03,
   c * m.e10, c * m.e11, c * m.e12, c * m.e13,
   c * m.e20, c * m.e21, c * m.e22, c * m.e23,
   c * m.e30, c * m.e31, c * m.e32, c * m.e33⟩

/-- Adjugate: transpose of the cofactor matrix. -/
def adjM4 (m : M4) : M4 :=
  ⟨(m4cof m).e00, (m4cof m).e10, (m4cof m).e20, (m4cof m).e30,
   (m4cof m).e01, (m4cof m).e11, (m4cof m).e21, (m4cof m).e31,
   (m4cof m).e02, (m4cof m).e12, (m4cof m).e22, (m4cof m).e32,
   (m4cof m).e03, (m4cof m).e13, (m4cof m).e23, (m4cof m).e33⟩

/-- Product of the inverses of a list of matrices, taken in reversed order —
exactly how the `commonToTarget` loop of `findTransform` accumulates
(`commonToTarget` is the reverse of the target-side walk, and each step
right-multiplies by an inverse). -/
def invChainM4 (l : List M4) : M4 := listProdM4 (l.reverse.map m4invert)

/-- Determinant of a 3×3 matrix. -/
def det3m (m : Mat3) : ℚ :=
  det3v m.a00 m.a01 m.a02 m.a10 m.a11 m.a12 m.a20 m.a21 m.a22

/-- Predicate `WalkOk s cur l`: the `while (current) { push; current = current.parent }`
loop started at `cur` terminates and visits exactly the frames `l`, in
order.  The walk is deterministic in `cur`. -/
inductive WalkOk (s : TF2State) : Option String → List String → Prop
  | nil : WalkOk s none []
  | cons (fid : String) (t : List String) :
      WalkOk s (parentOf s fid) t → WalkOk s (some fid) (fid :: t)

/-- Decidable check that the state is a forest: the parent-chain walk from
every frame in the map terminates (within the fuel the embedding grants,
which a terminating walk never exhausts).  This is exactly "no frame can
reach itself by repeatedly following parent edges" for states whose parent
edges stay inside the map, and is the "tree state" premise of the spec. -/
def AcyclicB (s : TF2State) : Bool :=
  s.frames.all (fun e => (pathToRoot s e.1).isSome)

/-- Decidable check that every stored link rotation is a unit quaternion
(what the external-interface contract of §6 guarantees for incoming
messages). -/
def unitRotationsB (s : TF2State) : Bool :=
  s.frames.all (fun e => match e.2.transformToParent with
    | some t => qNormSq t.rotation == 1
    | none => true)

def vneg (v : Vec3) : Vec3 := ⟨-v.x, -v.y, -v.z⟩

/-- Sum of the stored translations along a chain (spec §4.2: with identity
rotations the composed transform is the sum of the link translations). -/
def sumTranslations : List TransformQ → Vec3
  | [] => vzero
  | t :: rest => vadd t.translation (sumTranslations rest)

/-- Modelled from the spec (§4.2 step 4, glossary "rigid-body transform"):
applying one child-to-parent link to a point, i.e. coordinates in the child
frame mapped to coordinates in the parent frame: rotate, then translate. -/
def applyTQ (t : TransformQ) (v : Vec3) : Vec3 :=
  vadd (mat3Apply (rotM3 t.rotation) v) t.translation

/-- Modelled from the spec (§4.2 step 5): applying the exact inverse of one
child-to-parent link, i.e. parent coordinates mapped to child coordinates. -/
def applyInvTQ (t : TransformQ) (v : Vec3) : Vec3 :=
  applyTM (decomposeTM (m4invert (linkM4 t))) v

/-- Modelled from the spec (§4.2, C1): the rigid-body transform mapping
coordinates expressed in the source frame to coordinates expressed in the
target frame, given the collected source chain `cs` (walk order, source
side first) and target chain `ct` (walk order, target side first): walk the
point up the source chain to the common ancestor, then down the target
chain by inverse links. -/
def specCoordMap (cs ct : List TransformQ) (v : Vec3) : Vec3 :=
  ct.reverse.foldl (fun w t => applyInvTQ t w)
    (cs.foldl (fun w t => applyTQ t w) v)

/-- A stamped transform message (zero timestamp; the store never reads it). -/
def tfEntry (pid cid : String) (t : Vec3) (q : Quat) : TransformStamped :=
  ⟨⟨pid, ⟨0, 0⟩⟩, cid, ⟨t, q⟩⟩

/-- The spec's basic-composition state:
`addTransform("map","base",(1,0,0),id)` then
`addTransform("base","sensor",(0,1,0),id)`. -/
def stateBasic : TF2State := addTransformsState emptyState
  [tfEntry "map" "base" ⟨1, 0, 0⟩ qId, tfEntry "base" "sensor" ⟨0, 1, 0⟩ qId]

/-- The 180°-about-x unit quaternion `(1,0,0,0)`; its rotation matrix is
`diag(1,-1,-1)`. -/
def q180 : Quat := ⟨1, 0, 0, 0⟩

/-- A state with two children of a common root `A`: target `T` offset by
`(0,1,0)` with identity rotation, source `S` rotated by 180° about x with
zero offset. -/
def stateRot : TF2State := addTransformsState emptyState
  [tfEntry "A" "T" ⟨0, 1, 0⟩ qId, tfEntry "A" "S" vzero q180]

/-- Two disconnected subtrees: `a→b` and `x→y`. -/
def stateTwoTrees : TF2State := addTransformsState emptyState
  [tfEntry "a" "b" ⟨1, 0, 0⟩ qId, tfEntry "x" "y" ⟨2, 0, 0⟩ qId]

/-- Definition `iterParent s k fid`: follow the parent edge `k` times from `fid`
(`none` once the walk leaves the tree, i.e. hits a parentless or unknown
frame). -/
def iterParent (s : TF2State) : Nat → String → Option String
  | 0, fid => some fid
  | n + 1, fid =>
    match parentOf s fid with
    | some p => iterParent s n p
    | none => none

/-- Frame `a` can reach `b` by following parent edges zero or more times. -/
def Reaches (s : TF2State) (a b : String) : Prop :=
  ∃ k, iterParent s k a = some b

/-- The spec's tree invariant: no frame can reach itself by repeatedly
following parent edges. -/
def Acyclic (s : TF2State) : Prop :=
  ∀ fid k, 0 < k → iterParent s k fid ≠ some fid

/-- A sequence of stamped transforms is guarded when, at each application
point, the entry's parent frame cannot already reach its child frame
(ruling out parent = child and any edge that would close a loop). -/
def Guarded : TF2State → List TransformStamped → Prop
  | _, [] => True
  | s, ts :: rest =>
    ¬ Reaches s ts.header.frame_id ts.child_frame_id ∧
      Guarded (addTransform s ts) rest

/-- The cyclic state the spec's §9 open question warns about:
`addTransform("a","b")` followed by `addTransform("b","a")`. -/
def stateCycle : TF2State := addTransformsState emptyState
  [tfEntry "a" "b" vzero qId, tfEntry "b" "a" vzero qId]

/-- The root-pointer invariant the claim asserts: a null root only on an
empty map, and a non-null root pointing at a parentless frame. -/
def RootInv (s : TF2State) : Prop :=
  (s.rootFrame = none → s.frames = []) ∧
  ∀ r, s.rootFrame = some r → parentOf s r = none

/-- The guard under which `addTransform` preserves `RootInv`: distinct
parent and child ids, and either a parentless parent frame or a child that
is not the current root. -/
def GuardR (s : TF2State) (ts : TransformStamped) : Prop :=
  ts.header.frame_id ≠ ts.child_frame_id ∧
    (parentOf s ts.header.frame_id = none ∨ s.rootFrame ≠ some ts.child_frame_id)

def GuardedR : TF2State → List TransformStamped → Prop
  | _, [] => True
  | s, ts :: rest => GuardR s ts ∧ GuardedR (addTransform s ts) rest

/-- Linking the current root (`a`) beneath a frame (`d`) that already has a
parent (`c`): `addTransform("a","b")`, `addTransform("c","d")`,
`addTransform("d","a")`. -/
def stateRootBug : TF2State := addTransformsState emptyState
  [tfEntry "a" "b" vzero qId, tfEntry "c" "d" vzero qId, tfEntry "d" "a" vzero qId]

structure RawTransform where
  translation : Option Vec3
  rotation : Option Quat
deriving DecidableEq

/-- An incoming `/tf` entry as delivered, before any shape guarantee:
`header`, `transform`, and its `translation`/`rotation` members may be
absent (`undefined`).  A missing *id* is not modelled as an error because
in JS `undefined` is a perfectly valid `Map` key — `addTransform` would
silently create a frame keyed `undefined`. -/
structure RawTransformStamped where
  header : Option Header
  child_frame_id : String
  transform : Option RawTransform
deriving DecidableEq

/-- Source `addTransform` on a raw entry, with the source's evaluation
order.  The body first reads `transformStamped.header.frame_id` (a missing
`header` throws here, state untouched) and
`transformStamped.transform.translation` / `...rotation` (a missing
`transform` throws here, state untouched; missing members merely bind
`undefined`).  Both `getOrCreateFrame` calls then run — creating the
parent and child frames and possibly assigning the first root — and only
afterwards does `new THREE.Vector3(t.x, …)` (resp. `new THREE.Quaternion(
r.x, …)`) throw the `TypeError` when `translation` (resp. `rotation`) was
missing, so those two frame creations survive the throw.  `Except.error`
carries the state as left behind by the throwing call. -/
def addTransformRaw (s : TF2State) (r : RawTransformStamped) :
    Except TF2State TF2State :=
  match r.header with
  | none => .error s
  | some h =>
    match r.transform with
    | none => .error s
    | some t =>
      match t.translation, t.rotation with
      | some tv, some rq => .ok (addTransform s ⟨h, r.child_frame_id, ⟨tv, rq⟩⟩)
      | _, _ =>
        .error (getOrCreateFrame (getOrCreateFrame s h.frame_id) r.child_frame_id)

/-- The state a malformed raw entry leaves behind when `addTransform`
throws on it: unchanged when `header` or `transform` is missing (the
throw precedes any mutation), and with both frames resolved/created when
only `translation` or `rotation` is missing (the throw follows the two
`getOrCreateFrame` calls). -/
def rawErrState (s : TF2State) (r : RawTransformStamped) : TF2State :=
  match r.header, r.transform with
  | some h, some _ =>
    getOrCreateFrame (getOrCreateFrame s h.frame_id) r.child_frame_id
  | _, _ => s

/-- The `addTransforms` loop over raw entries.  An exception propagates
out of the loop immediately: entries before the faulty one stay applied,
the faulty entry contributes only the partial mutation of `rawErrState`
(its frames may be created, its parent edge never is), later entries are
not applied at all, and `notifyChange` never fires.  Result: (final
state, whether a TypeError escaped, whether the change notification
fired). -/
def addTransformsRaw (s : TF2State) :
    List RawTransformStamped → TF2State × Bool × Bool
  | [] => (s, false, false)
  | r :: rest =>
    match addTransformRaw s r with
    | .error se => (se, true, false)
    | .ok s' =>
      match addTransformsRaw s' rest with
      | (sf, threw, _) => (sf, threw, !threw)

/-- Well-formedness of a raw entry: all four required members present. -/
def wfRaw : RawTransformStamped → Bool
  | ⟨some _, _, some ⟨some _, some _⟩⟩ => true
  | _ => false

/-- The typed entry a well-formed raw entry denotes. -/
def toTS : RawTransformStamped → Option TransformStamped
  | ⟨some h, cid, some ⟨some tv, some rq⟩⟩ => some ⟨h, cid, ⟨tv, rq⟩⟩
  | _ => none

/-- A raw entry missing its `transform.translation`. -/
def rawBad : RawTransformStamped :=
  ⟨some ⟨"map", ⟨0, 0⟩⟩, "base", some ⟨none, some qId⟩⟩

/-- A well-formed raw entry `x → y`. -/
def rawGood : RawTransformStamped :=
  ⟨some ⟨"x", ⟨0, 0⟩⟩, "y", some ⟨some vzero, some qId⟩⟩

/-- One re-entrant registry operation performed by a running callback.
Callbacks are identified by opaque names; a callback's observable effect
on the store's callback registry — the only effect the claims concern — is
the sequence of `onTransformChange` registrations and unsubscribe calls it
performs when invoked.  An environment maps each callback name to that
sequence (`[]` for a callback that leaves the registry alone). -/
inductive CbAction where
  | register (c : String)
  | unregister (c : String)

/-- Source `onTransformChange(callback)`: JS `Set.add` — appends a not-yet-present
callback at the end of the insertion order, leaves a present one alone. -/
def registerCb (cbs : List String) (c : String) : List String :=
  if c ∈ cbs then cbs else cbs ++ [c]

/-- The unsubscribe function returned by `onTransformChange`:
JS `Set.delete`. -/
def unregisterCb (cbs : List String) (c : String) : List String :=
  cbs.erase c

/-- Apply one re-entrant action to (registry, not-yet-visited queue),
following JS `Set` iteration semantics for
`for (const callback of this.changeCallbacks)`: an element added during
iteration is appended and will still be visited by the same loop; a
deleted element that has not yet been visited is skipped. -/
def applyCbAction :
    List String × List String → CbAction → List String × List String
  | (reg, pending), .register c =>
    (registerCb reg c, if c ∈ reg then pending else pending ++ [c])
  | (reg, pending), .unregister c => (unregisterCb reg c, pending.erase c)

/-- Source `notifyChange()` on fuel: invoke the head of the queue, apply its
re-entrant actions, continue.  Returns the final registry and the
invocation log; `none` models a notification that never terminates
(callbacks registering fresh callbacks forever). -/
def notifyRunAux (env : String → List CbAction) :
    Nat → List String → List String → List String →
      Option (List String × List String)
  | 0, pending, reg, log => if pending.isEmpty then some (reg, log) else none
  | _ + 1, [], reg, log => some (reg, log)
  | n + 1, c :: rest, reg, log =>
    match (env c).foldl applyCbAction (reg, rest) with
    | (reg2, pending2) => notifyRunAux env n pending2 reg2 (log ++ [c])

def notifyRun (env : String → List CbAction) (fuel : Nat) (cbs : List String) :
    Option (List String × List String) :=
  notifyRunAux env fuel cbs cbs []

/-- Source `addTransforms(transforms)` including its notification: apply every
entry, then fire `notifyChange` once — only when the loop body ran at
least once (`changed`).  Returns the new store state together with the
final registry and the invocation log of the single notification (the
registry unchanged and an empty log when nothing fired). -/
def addTransformsRun (s : TF2State) (cbs : List String)
    (env : String → List CbAction) (fuel : Nat) (l : List TransformStamped) :
    TF2State × Option (List String × List String) :=
  (addTransformsState s l,
    if l.isEmpty then some (cbs, []) else notifyRun env fuel cbs)

/-- A registry environment in which callback `"a"` re-entrantly registers
a fresh callback `"c"` during notification. -/
def envAddDuring : String → List CbAction :=
  fun c => if c = "a" then [CbAction.register "c"] else []

/-- A registry environment in which callback `"a"` re-entrantly
unsubscribes callback `"b"` during notification. -/
def envRemoveDuring : String → List CbAction :=
  fun c => if c = "a" then [CbAction.unregister "b"] else []

theorem m4mul_assoc (a b c : M4) : mulM4 (mulM4 a b) c = mulM4 a (mulM4 b c) := by
  ext <;> simp only [mulM4] <;> ring

theorem m4mul_id_left (a : M4) : mulM4 idM4 a = a := by
  ext <;> simp only [mulM4, idM4] <;> ring

theorem m4mul_id_right (a : M4) : mulM4 a idM4 = a := by
  ext <;> simp only [mulM4, idM4] <;> ring

theorem foldl_mulM4_eq (a : M4) (l : List M4) :
    l.foldl mulM4 a = mulM4 a (listProdM4 l) := by
  induction l generalizing a with
  | nil => simp [listProdM4, m4mul_id_right]
  | cons x t ih =>
    simp only [listProdM4, List.foldl_cons]
    rw [ih (mulM4 a x), ih (mulM4 idM4 x), m4mul_id_left, m4mul_assoc]

theorem listProdM4_cons (x : M4) (l : List M4) :
    listProdM4 (x :: l) = mulM4 x (listProdM4 l) := by
  simp only [listProdM4, List.foldl_cons]
  rw [show l.foldl mulM4 (mulM4 idM4 x) = mulM4 (mulM4 idM4 x) (listProdM4 l) from
    foldl_mulM4_eq _ l, m4mul_id_left]
  rfl

theorem listProdM4_append (l₁ l₂ : List M4) :
    listProdM4 (l₁ ++ l₂) = mulM4 (listProdM4 l₁) (listProdM4 l₂) := by
  induction l₁ with
  | nil => simp [listProdM4, m4mul_id_left]
  | cons x t ih => simp only [List.cons_append, listProdM4_cons, ih, m4mul_assoc]

theorem m4invert_eq_smul_adj (m : M4) (h : det4 m ≠ 0) :
    m4invert m = smulM4 (det4 m)⁻¹ (adjM4 m) := by
  unfold m4invert
  rw [if_neg h]
  ext <;> simp only [smulM4, adjM4] <;> rw [div_eq_inv_mul]

set_option maxHeartbeats 1600000 in
theorem adj_mulM4 (m : M4) : mulM4 (adjM4 m) m = smulM4 (det4 m) idM4 := by
  ext <;> simp only [mulM4, adjM4, m4cof, det3v, det4, idM4, smulM4] <;> ring

set_option maxHeartbeats 1600000 in
theorem mulM4_adj (m : M4) : mulM4 m (adjM4 m) = smulM4 (det4 m) idM4 := by
  ext <;> simp only [mulM4, adjM4, m4cof, det3v, det4, idM4, smulM4] <;> ring

theorem smul_mulM4 (c : ℚ) (a b : M4) :
    mulM4 (smulM4 c a) b = smulM4 c (mulM4 a b) := by
  ext <;> simp only [mulM4, smulM4] <;> ring

theorem mulM4_smul (c : ℚ) (a b : M4) :
    mulM4 a (smulM4 c b) = smulM4 c (mulM4 a b) := by
  ext <;> simp only [mulM4, smulM4] <;> ring

theorem smul_smulM4 (c d : ℚ) (m : M4) :
    smulM4 c (smulM4 d m) = smulM4 (c * d) m := by
  ext <;> simp only [smulM4] <;> ring

theorem smulM4_one (m : M4) : smulM4 1 m = m := by
  ext <;> simp [smulM4]

theorem m4invert_mul (m : M4) (h : det4 m ≠ 0) :
    mulM4 (m4invert m) m = idM4 := by
  rw [m4invert_eq_smul_adj m h, smul_mulM4, adj_mulM4, smul_smulM4,
    inv_mul_cancel₀ h, smulM4_one]

theorem mul_m4invert (m : M4) (h : det4 m ≠ 0) :
    mulM4 m (m4invert m) = idM4 := by
  rw [m4invert_eq_smul_adj m h, mulM4_smul, mulM4_adj, smul_smulM4,
    inv_mul_cancel₀ h, smulM4_one]

/-- Inverse uniqueness: a right inverse of an invertible matrix is
`m4invert`. -/
theorem m4invert_eq_of_mul (m n : M4) (h : det4 m ≠ 0)
    (hmn : mulM4 m n = idM4) : m4invert m = n := by
  have h1 : mulM4 (m4invert m) (mulM4 m n) = m4invert m := by
    rw [hmn, m4mul_id_right]
  rw [← m4mul_assoc, m4invert_mul m h, m4mul_id_left] at h1
  exact h1.symm

theorem invChainM4_mul (l : List M4) (h : ∀ x ∈ l, det4 x ≠ 0) :
    mulM4 (invChainM4 l) (listProdM4 l) = idM4 := by
  induction l with
  | nil => simp [invChainM4, listProdM4, m4mul_id_left]
  | cons x t ih =>
    have hx : det4 x ≠ 0 := h x (List.mem_cons_self x t)
    have ht : ∀ y ∈ t, det4 y ≠ 0 := fun y hy => h y (List.mem_cons_of_mem x hy)
    have h1 : invChainM4 (x :: t) = mulM4 (invChainM4 t) (m4invert x) := by
      simp only [invChainM4, List.reverse_cons, List.map_append, List.map_cons,
        List.map_nil, listProdM4_append]
      rw [show listProdM4 [m4invert x] = m4invert x from by
        simp only [listProdM4, List.foldl_cons, List.foldl_nil]
        exact m4mul_id_left _]
    rw [h1, listProdM4_cons, m4mul_assoc, ← m4mul_assoc (m4invert x),
      m4invert_mul x hx, m4mul_id_left]
    exact ih ht

theorem mul_invChainM4 (l : List M4) (h : ∀ x ∈ l, det4 x ≠ 0) :
    mulM4 (listProdM4 l) (invChainM4 l) = idM4 := by
  induction l with
  | nil => simp [invChainM4, listProdM4, m4mul_id_left]
  | cons x t ih =>
    have hx : det4 x ≠ 0 := h x (List.mem_cons_self x t)
    have ht : ∀ y ∈ t, det4 y ≠ 0 := fun y hy => h y (List.mem_cons_of_mem x hy)
    have h1 : invChainM4 (x :: t) = mulM4 (invChainM4 t) (m4invert x) := by
      simp only [invChainM4, List.reverse_cons, List.map_append, List.map_cons,
        List.map_nil, listProdM4_append]
      rw [show listProdM4 [m4invert x] = m4invert x from by
        simp only [listProdM4, List.foldl_cons, List.foldl_nil]
        exact m4mul_id_left _]
    rw [h1, listProdM4_cons, m4mul_assoc, ← m4mul_assoc (listProdM4 t), ih ht,
      m4mul_id_left, mul_m4invert x hx]

theorem det4_affM4 (m : Mat3) (t : Vec3) : det4 (affM4 m t) = det3m m := by
  simp only [det4, m4cof, det3v, det3m, affM4]
  ring

/-- The THREE rotation matrix of a unit quaternion has determinant 1. -/
theorem det3m_rotM3 (q : Quat) (h : qNormSq q = 1) : det3m (rotM3 q) = 1 := by
  simp only [det3m, det3v, rotM3]
  simp only [qNormSq] at h
  linear_combination (4 * (q.x ^ 2 + q.y ^ 2 + q.z ^ 2)) * h

theorem det4_linkM4 (t : TransformQ) (h : qNormSq t.rotation = 1) :
    det4 (linkM4 t) = 1 := by
  rw [linkM4, det4_affM4, det3m_rotM3 _ h]

theorem affine_affM4 (m : Mat3) (t : Vec3) : AffineM4 (affM4 m t) :=
  ⟨rfl, rfl, rfl, rfl⟩

theorem affine_idM4 : AffineM4 idM4 := ⟨rfl, rfl, rfl, rfl⟩

theorem affine_mulM4 {a b : M4} (ha : AffineM4 a) (hb : AffineM4 b) :
    AffineM4 (mulM4 a b) := by
  obtain ⟨a0, a1, a2, a3⟩ := ha
  obtain ⟨b0, b1, b2, b3⟩ := hb
  refine ⟨?_, ?_, ?_, ?_⟩ <;> simp only [mulM4]
  · rw [a0, a1, a2, a3, b0]; ring
  · rw [a0, a1, a2, a3, b1]; ring
  · rw [a0, a1, a2, a3, b2]; ring
  · rw [a0, a1, a2, a3, b3]; ring

/-- For an affine matrix the determinant reduces to the determinant of the
upper-left block (which is the `e33` cofactor). -/
theorem det4_eq_cof33 (m : M4) (hm : AffineM4 m) : det4 m = (m4cof m).e33 := by
  obtain ⟨h30, h31, h32, h33⟩ := hm
  simp only [det4, m4cof, det3v]
  rw [h30, h31, h32, h33]
  ring

/-- The exact inverse of an invertible affine matrix is affine. -/
theorem affine_m4invert (m : M4) (hm : AffineM4 m) (h : det4 m ≠ 0) :
    AffineM4 (m4invert m) := by
  have hd : det4 m = (m4cof m).e33 := det4_eq_cof33 m hm
  obtain ⟨h30, h31, h32, h33⟩ := hm
  unfold m4invert
  rw [if_neg h]
  refine ⟨?_, ?_, ?_, ?_⟩
  · show -det3v m.e10 m.e11 m.e12 m.e20 m.e21 m.e22 m.e30 m.e31 m.e32 / det4 m = 0
    rw [h30, h31, h32]
    simp [det3v]
  · show det3v m.e00 m.e01 m.e02 m.e20 m.e21 m.e22 m.e30 m.e31 m.e32 / det4 m = 0
    rw [h30, h31, h32]
    simp [det3v]
  · show -det3v m.e00 m.e01 m.e02 m.e10 m.e11 m.e12 m.e30 m.e31 m.e32 / det4 m = 0
    rw [h30, h31, h32]
    simp [det3v]
  · show det3v m.e00 m.e01 m.e02 m.e10 m.e11 m.e12 m.e20 m.e21 m.e22 / det4 m = 1
    rw [show det3v m.e00 m.e01 m.e02 m.e10 m.e11 m.e12 m.e20 m.e21 m.e22 =
      (m4cof m).e33 from rfl, ← hd]
    exact div_self h

theorem affine_listProdM4 (l : List M4) (h : ∀ x ∈ l, AffineM4 x) :
    AffineM4 (listProdM4 l) := by
  induction l with
  | nil => exact affine_idM4
  | cons x t ih =>
    rw [listProdM4_cons]
    exact affine_mulM4 (h x (List.mem_cons_self x t))
      (ih fun y hy => h y (List.mem_cons_of_mem x hy))

theorem affine_invChainM4 (l : List M4) (ha : ∀ x ∈ l, AffineM4 x)
    (hd : ∀ x ∈ l, det4 x ≠ 0) : AffineM4 (invChainM4 l) := by
  refine affine_listProdM4 _ fun x hx => ?_
  rw [List.mem_map] at hx
  obtain ⟨y, hy, rfl⟩ := hx
  rw [List.mem_reverse] at hy
  exact affine_m4invert y (ha y hy) (hd y hy)

/-- Decomposition turns matrix product into rigid-transform composition as
long as the right factor is affine. -/
theorem decomposeTM_mulM4 (a b : M4) (hb : AffineM4 b) :
    decomposeTM (mulM4 a b) = composeTM (decomposeTM a) (decomposeTM b) := by
  obtain ⟨b0, b1, b2, b3⟩ := hb
  ext <;> simp only [decomposeTM, composeTM, mulM4, mat3Mul, mat3Apply, vadd] <;>
    simp only [b0, b1, b2, b3] <;> ring

theorem decomposeTM_idM4 : decomposeTM idM4 = idTM := rfl

theorem walkOk_unique {s : TF2State} {c : Option String} {l₁ l₂ : List String}
    (h₁ : WalkOk s c l₁) (h₂ : WalkOk s c l₂) : l₁ = l₂ := by
  induction h₁ generalizing l₂ with
  | nil => cases h₂; rfl
  | cons fid t _ ih =>
    cases h₂ with
    | cons _ t' h' => rw [ih h']

/-- Any suffix of a terminating walk is the terminating walk from its own
head. -/
theorem walkOk_suffix {s : TF2State} {c : Option String} {u v : List String}
    {x : String} (h : WalkOk s c (u ++ x :: v)) : WalkOk s (some x) (x :: v) := by
  induction u generalizing c with
  | nil =>
    rw [List.nil_append] at h
    cases h with
    | cons _ _ h' => exact WalkOk.cons _ _ h'
  | cons a u' ih =>
    rw [List.cons_append] at h
    cases h with
    | cons _ _ h' => exact ih h'

/-- Soundness of `pathToRootAux`: a successful run extends the accumulator with
a terminating walk from the current frame. -/
theorem pathToRootAux_sound (s : TF2State) :
    ∀ (n : Nat) (cur : Option String) (acc l : List String),
      pathToRootAux s n cur acc = some l →
      ∃ t, l = acc.reverse ++ t ∧ WalkOk s cur t := by
  intro n
  induction n with
  | zero =>
    intro cur acc l h
    cases cur with
    | none =>
      refine ⟨[], ?_, WalkOk.nil⟩
      simp only [pathToRootAux] at h
      simp [← Option.some_inj.mp h]
    | some fid => simp [pathToRootAux] at h
  | succ n ih =>
    intro cur acc l h
    cases cur with
    | none =>
      refine ⟨[], ?_, WalkOk.nil⟩
      simp only [pathToRootAux] at h
      simp [← Option.some_inj.mp h]
    | some fid =>
      simp only [pathToRootAux] at h
      obtain ⟨t, ht, hw⟩ := ih (parentOf s fid) (fid :: acc) l h
      refine ⟨fid :: t, ?_, WalkOk.cons fid t hw⟩
      simp only [List.reverse_cons] at ht
      simp [ht]

theorem pathToRoot_walkOk {s : TF2State} {fid : String} {l : List String}
    (h : pathToRoot s fid = some l) : WalkOk s (some fid) l := by
  obtain ⟨t, ht, hw⟩ := pathToRootAux_sound s (s.frames.length + 1) (some fid) [] l h
  simpa [ht] using hw

theorem walkOk_head {s : TF2State} {x : String} {l : List String}
    (h : WalkOk s (some x) l) : ∃ t, l = x :: t := by
  cases h with
  | cons _ t _ => exact ⟨t, rfl⟩

/-- Helper: `List.lookup` success means membership of the pair. -/
theorem lookup_pair_mem {α β : Type} [BEq α] [LawfulBEq α]
    {l : List (α × β)} {a : α} {b : β} (h : l.lookup a = some b) : (a, b) ∈ l := by
  induction l with
  | nil => simp [List.lookup] at h
  | cons e t ih =>
    rw [List.lookup] at h
    cases hbe : a == e.1 with
    | true =>
      simp only [hbe] at h
      have ha : a = e.1 := eq_of_beq hbe
      have hb2 : e.2 = b := by simpa using h
      have hab : (a, b) = e := by rw [ha, ← hb2]
      rw [hab]
      exact List.mem_cons_self e t
    | false =>
      simp only [hbe] at h
      exact List.mem_cons_of_mem e (ih h)

/-- Helper: `find?` decomposition: the found element splits the list, and nothing
before it satisfies the test. -/
theorem find?_split {α : Type} {p : α → Bool} :
    ∀ {l : List α} {a : α}, l.find? p = some a →
      p a = true ∧ ∃ u v, l = u ++ a :: v ∧ ∀ b ∈ u, p b = false := by
  intro l
  induction l with
  | nil => intro a h; simp [List.find?] at h
  | cons x t ih =>
    intro a h
    rw [List.find?] at h
    by_cases hx : p x
    · rw [hx] at h
      simp only [Option.some_inj] at h
      subst h
      exact ⟨hx, [], t, rfl, by simp⟩
    · rw [Bool.not_eq_true] at hx
      rw [hx] at h
      obtain ⟨hp, u, v, hl, hu⟩ := ih h
      refine ⟨hp, x :: u, v, by rw [hl]; rfl, ?_⟩
      intro b hb
      rcases List.mem_cons.mp hb with rfl | hb'
      · exact hx
      · exact hu b hb'

theorem contains_mem {l : List String} {a : String} :
    l.contains a = true ↔ a ∈ l := by
  simp [List.contains]

/-- The common ancestor `findTransform` picks does not depend on which of
the two frames plays the source role: scanning the source path for the
first frame contained in the target path and vice versa find the same
frame.  (This is where the forest structure enters: both paths are
terminating deterministic walks, so they agree from their first shared
frame on.) -/
theorem find_common_symm {s : TF2State} {cS cT : Option String}
    {pS pT : List String} {m m' : String}
    (hS : WalkOk s cS pS) (hT : WalkOk s cT pT)
    (hm : pS.find? (fun f => pT.contains f) = some m)
    (hm' : pT.find? (fun f => pS.contains f) = some m') : m = m' := by
  obtain ⟨hpm, u, v, hSeq, hu⟩ := find?_split hm
  obtain ⟨hpm', u', v', hTeq, hu'⟩ := find?_split hm'
  have W1 : WalkOk s (some m) (m :: v) := walkOk_suffix (hSeq ▸ hS)
  have W2 : WalkOk s (some m') (m' :: v') := walkOk_suffix (hTeq ▸ hT)
  have hm'pS : m' ∈ pS := contains_mem.mp hpm'
  have hm'pT : m' ∈ pT := by
    rw [hTeq]
    exact List.mem_append_right u' (List.mem_cons_self m' v')
  have hm_pT : m ∈ pT := contains_mem.mp hpm
  have hm_pS : m ∈ pS := by
    rw [hSeq]
    exact List.mem_append_right u (List.mem_cons_self m v)
  have hm'mv : m' ∈ m :: v := by
    rw [hSeq] at hm'pS
    rcases List.mem_append.mp hm'pS with h1 | h2
    · exact absurd (contains_mem.mpr hm'pT) (by rw [hu m' h1]; simp)
    · exact h2
  have hmm'v' : m ∈ m' :: v' := by
    rw [hTeq] at hm_pT
    rcases List.mem_append.mp hm_pT with h1 | h2
    · exact absurd (contains_mem.mpr hm_pS) (by rw [hu' m h1]; simp)
    · exact h2
  obtain ⟨w1, w2, hw⟩ := List.append_of_mem hm'mv
  have W2a : WalkOk s (some m') (m' :: w2) := walkOk_suffix (hw ▸ W1)
  have hvw : m' :: w2 = m' :: v' := walkOk_unique W2a W2
  have hL1 : m :: v = w1 ++ m' :: v' := by rw [hw, hvw]
  obtain ⟨w3, w4, hw2⟩ := List.append_of_mem hmm'v'
  have W1a : WalkOk s (some m) (m :: w4) := walkOk_suffix (hw2 ▸ W2)
  have hvw2 : m :: w4 = m :: v := walkOk_unique W1a W1
  have hL2 : m' :: v' = w3 ++ m :: v := by rw [hw2, hvw2]
  have hlen : (m :: v).length = w1.length + (w3.length + (m :: v).length) := by
    calc (m :: v).length = w1.length + (m' :: v').length := by rw [hL1]; simp
    _ = w1.length + (w3.length + (m :: v).length) := by rw [hL2]; simp
  have hw1 : w1.length = 0 := by omega
  have : m :: v = m' :: v' := by
    rw [hL1, List.eq_nil_of_length_eq_zero hw1, List.nil_append]
  exact (List.cons_eq_cons.mp this).1

theorem acyclicB_pathToRoot {s : TF2State} (hA : AcyclicB s = true)
    {fid : String} {fr : Frame} (h : s.frames.lookup fid = some fr) :
    ∃ l, pathToRoot s fid = some l := by
  have hmem : (fid, fr) ∈ s.frames := lookup_pair_mem h
  have := List.all_eq_true.mp hA _ hmem
  simpa [Option.isSome_iff_exists] using this

theorem unitRotationsB_spec {s : TF2State} (hU : unitRotationsB s = true)
    {fid : String} {fr : Frame} (h : s.frames.lookup fid = some fr)
    {t : TransformQ} (ht : fr.transformToParent = some t) :
    qNormSq t.rotation = 1 := by
  have hmem : (fid, fr) ∈ s.frames := lookup_pair_mem h
  have := List.all_eq_true.mp hU _ hmem
  rw [ht] at this
  simpa using this

/-- Every transform `collectUp` gathers is stored in some frame of the map. -/
theorem collectUpAux_mem (s : TF2State) (anc : String) :
    ∀ (n : Nat) (fid : String) (acc : List TransformQ) (t : TransformQ),
      t ∈ collectUpAux s anc n fid acc →
      t ∈ acc ∨ ∃ gid fr, s.frames.lookup gid = some fr ∧
        fr.transformToParent = some t := by
  intro n
  induction n with
  | zero =>
    intro fid acc t ht
    simp only [collectUpAux, List.mem_reverse] at ht
    exact Or.inl ht
  | succ n ih =>
    intro fid acc t ht
    simp only [collectUpAux] at ht
    by_cases hfa : fid = anc
    · rw [if_pos hfa] at ht
      exact Or.inl (List.mem_reverse.mp ht)
    · rw [if_neg hfa] at ht
      cases hlk : s.frames.lookup fid with
      | none =>
        rw [hlk] at ht
        exact Or.inl (List.mem_reverse.mp ht)
      | some fr =>
        rw [hlk] at ht
        simp only at ht
        cases hp : fr.parent with
        | some p =>
          rw [hp] at ht
          simp only at ht
          cases htp : fr.transformToParent with
          | none =>
            rw [htp] at ht
            simp only at ht
            exact ih p acc t ht
          | some t0 =>
            rw [htp] at ht
            simp only at ht
            rcases ih p (t0 :: acc) t ht with hin | hstored
            · rcases List.mem_cons.mp hin with rfl | hin'
              · exact Or.inr ⟨fid, fr, hlk, htp⟩
              · exact Or.inl hin'
            · exact Or.inr hstored
        | none =>
          rw [hp] at ht
          simp only at ht
          cases htp : fr.transformToParent with
          | none =>
            rw [htp] at ht
            simp only [List.mem_reverse] at ht
            exact Or.inl ht
          | some t0 =>
            rw [htp] at ht
            simp only [List.mem_reverse] at ht
            rcases List.mem_cons.mp ht with rfl | h1
            · exact Or.inr ⟨fid, fr, hlk, htp⟩
            · exact Or.inl h1

theorem collectUp_mem {s : TF2State} {fid anc : String} {t : TransformQ}
    (h : t ∈ collectUp s fid anc) :
    ∃ gid fr, s.frames.lookup gid = some fr ∧ fr.transformToParent = some t := by
  rcases collectUpAux_mem s anc (s.frames.length + 1) fid [] t h with hin | hst
  · simp at hin
  · exact hst

/-- The two accumulation loops of `findTransform`, written as list
products: the result matrix is
(product of the source-chain link matrices, source-side first) times
(product of the inverted target-chain link matrices, ancestor-side first). -/
theorem findTransform_chains (s : TF2State) (A B : String)
    (anc : String) (cs ct : List TransformQ)
    (hc : chains s A B = some (anc, cs, ct)) :
    findTransform s A B =
      some (decomposeTM (mulM4 (listProdM4 (cs.map linkM4))
        (invChainM4 (ct.map linkM4)))) := by
  unfold findTransform
  rw [hc]
  simp only [Option.some_inj]
  have h1 : cs.foldl (fun acc tr => mulM4 acc (linkM4 tr)) idM4 =
      listProdM4 (cs.map linkM4) := by
    rw [listProdM4, List.foldl_map]
  have h2 : ct.reverse.foldl (fun acc tr => mulM4 acc (m4invert (linkM4 tr)))
        (listProdM4 (cs.map linkM4)) =
      mulM4 (listProdM4 (cs.map linkM4)) (invChainM4 (ct.map linkM4)) := by
    have hmap : ct.reverse.foldl (fun acc tr => mulM4 acc (m4invert (linkM4 tr)))
          (listProdM4 (cs.map linkM4)) =
        (ct.reverse.map (fun tr => m4invert (linkM4 tr))).foldl mulM4
          (listProdM4 (cs.map linkM4)) := by
      rw [List.foldl_map]
    rw [hmap, foldl_mulM4_eq]
    have hlist : ct.reverse.map (fun tr => m4invert (linkM4 tr)) =
        ((ct.map linkM4).reverse).map m4invert := by
      simp only [List.map_reverse, List.map_map]
      rfl
    simp only [invChainM4]
    rw [hlist]
  rw [h1, h2]

/-- Inversion of `chains`: a successful run exhibits the two root paths,
the `find?` that picked the ancestor, and the two collected chains. -/
theorem chains_inv (s : TF2State) (A B : String) (anc : String)
    (cs ct : List TransformQ) (hc : chains s A B = some (anc, cs, ct)) :
    ∃ pS pT, pathToRoot s B = some pS ∧ pathToRoot s A = some pT ∧
      pS.find? (fun f => pT.contains f) = some anc ∧
      cs = collectUp s B anc ∧ ct = collectUp s A anc := by
  unfold chains at hc
  cases h1 : s.frames.lookup A with
  | none => rw [h1] at hc; simp at hc
  | some frA =>
    rw [h1] at hc
    cases h2 : s.frames.lookup B with
    | none => rw [h2] at hc; simp at hc
    | some frB =>
      rw [h2] at hc
      simp only at hc
      cases h3 : pathToRoot s B with
      | none => rw [h3] at hc; simp at hc
      | some pS =>
        rw [h3] at hc
        cases h4 : pathToRoot s A with
        | none => rw [h4] at hc; simp at hc
        | some pT =>
          rw [h4] at hc
          simp only at hc
          cases h5 : pS.find? (fun f => pT.contains f) with
          | none => rw [h5] at hc; simp at hc
          | some m =>
            rw [h5] at hc
            simp only [Option.some_inj, Prod.mk.injEq] at hc
            obtain ⟨rfl, rfl, rfl⟩ := hc
            exact ⟨pS, pT, rfl, rfl, h5, rfl, rfl⟩

theorem collectUp_link_det {s : TF2State} (hq : unitRotationsB s = true)
    (fid anc : String) :
    ∀ x ∈ (collectUp s fid anc).map linkM4, det4 x ≠ 0 := by
  intro x hx
  rw [List.mem_map] at hx
  obtain ⟨t, ht, rfl⟩ := hx
  obtain ⟨gid, fr, hlk, htp⟩ := collectUp_mem ht
  rw [det4_linkM4 t (unitRotationsB_spec hq hlk htp)]
  exact one_ne_zero

theorem map_link_affine (l : List TransformQ) :
    ∀ x ∈ l.map linkM4, AffineM4 x := by
  intro x hx
  rw [List.mem_map] at hx
  obtain ⟨t, _, rfl⟩ := hx
  exact affine_affM4 _ _

theorem findTransform_some_chains (s : TF2State) (A B : String)
    (u : TransformM) (hu : findTransform s A B = some u) :
    ∃ anc cs ct, chains s A B = some (anc, cs, ct) := by
  unfold findTransform at hu
  cases hch : chains s A B with
  | none => rw [hch] at hu; simp at hu
  | some x =>
    obtain ⟨a, b, c⟩ := x
    exact ⟨a, b, c, hch ▸ rfl⟩

/-- Claim C4 (inverse consistency): for every tree state whose stored
rotations are unit quaternions and every pair of frames `A`, `B` for which
`findTransform` returns a transform in both directions, composing the
transform returned by `findTransform(A,B)` with the one returned by
`findTransform(B,A)` yields exactly the identity transform (zero
translation, identity rotation), over exact rational arithmetic. -/
theorem findTransform_inverse_consistent (s : TF2State) (A B : String)
    (u v : TransformM) (hq : unitRotationsB s = true)
    (hu : findTransform s A B = some u) (hv : findTransform s B A = some v) :
    composeTM u v = idTM := by
  obtain ⟨anc1, cs1, ct1, hc1⟩ := findTransform_some_chains s A B u hu
  obtain ⟨anc2, cs2, ct2, hc2⟩ := findTransform_some_chains s B A v hv
  obtain ⟨pS1, pT1, hpB, hpA, hf1, hcs1, hct1⟩ := chains_inv s A B anc1 cs1 ct1 hc1
  obtain ⟨pS2, pT2, hpA2, hpB2, hf2, hcs2, hct2⟩ := chains_inv s B A anc2 cs2 ct2 hc2
  have hApaths : pS2 = pT1 := by
    have := hpA2.symm.trans hpA
    exact Option.some_inj.mp this
  have hBpaths : pT2 = pS1 := by
    have := hpB2.symm.trans hpB
    exact Option.some_inj.mp this
  have hanc : anc1 = anc2 := by
    refine find_common_symm (pathToRoot_walkOk hpB) (pathToRoot_walkOk hpA) hf1 ?_
    rw [hApaths, hBpaths] at hf2
    exact hf2
  have hu1 := findTransform_chains s A B anc1 cs1 ct1 hc1
  rw [hu] at hu1
  have hv1 := findTransform_chains s B A anc2 cs2 ct2 hc2
  rw [hv] at hv1
  have hueq := Option.some_inj.mp hu1
  have hveq := Option.some_inj.mp hv1
  have hcs2' : cs2 = ct1 := by rw [hcs2, hct1, hanc]
  have hct2' : ct2 = cs1 := by rw [hct2, hcs1, hanc]
  rw [hcs2', hct2'] at hveq
  have hd1 : ∀ x ∈ cs1.map linkM4, det4 x ≠ 0 := by
    rw [hcs1]
    exact collectUp_link_det hq B anc1
  have hdt : ∀ x ∈ ct1.map linkM4, det4 x ≠ 0 := by
    rw [hct1]
    exact collectUp_link_det hq A anc1
  have haffM2 : AffineM4 (mulM4 (listProdM4 (ct1.map linkM4))
      (invChainM4 (cs1.map linkM4))) :=
    affine_mulM4 (affine_listProdM4 _ (map_link_affine ct1))
      (affine_invChainM4 _ (map_link_affine cs1) hd1)
  have hM : mulM4 (mulM4 (listProdM4 (cs1.map linkM4)) (invChainM4 (ct1.map linkM4)))
      (mulM4 (listProdM4 (ct1.map linkM4)) (invChainM4 (cs1.map linkM4))) = idM4 := by
    rw [m4mul_assoc, ← m4mul_assoc (invChainM4 (ct1.map linkM4)),
      invChainM4_mul _ hdt, m4mul_id_left, mul_invChainM4 _ hd1]
  rw [hueq, hveq, ← decomposeTM_mulM4 _ _ haffM2, hM, decomposeTM_idM4]

theorem collectUp_self (s : TF2State) (f : String) : collectUp s f f = [] := by
  unfold collectUp
  show collectUpAux s f (s.frames.length + 1) f [] = []
  unfold collectUpAux
  rw [if_pos rfl]
  rfl

/-- Claim C3 (identity query): on every tree state (all parent-chain walks
terminate) and for every frame id `f` present in the map,
`findTransform(f, f)` returns the identity transform: zero translation and
identity rotation.  (On a state with a parent cycle through `f`, the JS
walk would instead diverge — such states are not tree states.) -/
theorem findTransform_self_identity (s : TF2State) (f : String) (fr : Frame)
    (hA : AcyclicB s = true) (hf : s.frames.lookup f = some fr) :
    findTransform s f f = some idTM := by
  obtain ⟨p, hp⟩ := acyclicB_pathToRoot hA hf
  obtain ⟨t, rfl⟩ := walkOk_head (pathToRoot_walkOk hp)
  have hfind : (f :: t).find? (fun x => (f :: t).contains x) = some f :=
    List.find?_cons_of_pos t (by simp)
  have hchains : chains s f f = some (f, [], []) := by
    unfold chains
    rw [hf]
    simp only
    rw [hp]
    simp only
    rw [hfind]
    simp only [collectUp_self]
  have := findTransform_chains s f f f [] [] hchains
  rw [this]
  show some (decomposeTM (mulM4 idM4 idM4)) = some idTM
  rw [m4mul_id_left, decomposeTM_idM4]

/-- Claim C5 (null exactly on unknown or disconnected frames): on every tree
state, `findTransform(a, b)` returns null precisely when `a` or `b` names
no frame in the store, or no frame on the parent path of `b` lies on the
parent path of `a` (disjoint subtrees).  The embedding of `findTransform`
is a pure function of the state — matching the source, which performs only
`Map.get` and traversals, never `Map.set` — so the query can neither
create frames nor otherwise mutate the store, and it is total (never
throws). -/
theorem findTransform_none_iff (s : TF2State) (a b : String)
    (hA : AcyclicB s = true) :
    findTransform s a b = none ↔
      (s.frames.lookup a = none ∨ s.frames.lookup b = none ∨
        ∀ x ∈ (pathToRoot s b).getD [], x ∉ (pathToRoot s a).getD []) := by
  cases hla : s.frames.lookup a with
  | none =>
    have hft : findTransform s a b = none := by
      unfold findTransform chains
      rw [hla]
    simp [hft]
  | some fra =>
    cases hlb : s.frames.lookup b with
    | none =>
      have hft : findTransform s a b = none := by
        unfold findTransform chains
        rw [hla, hlb]
      simp [hft]
    | some frb =>
      obtain ⟨pT, hpT⟩ := acyclicB_pathToRoot hA hla
      obtain ⟨pS, hpS⟩ := acyclicB_pathToRoot hA hlb
      have hgb : (pathToRoot s b).getD [] = pS := by rw [hpS]; rfl
      have hga : (pathToRoot s a).getD [] = pT := by rw [hpT]; rfl
      rw [hgb, hga]
      constructor
      · intro hnone
        cases hfind : pS.find? (fun f => pT.contains f) with
        | some anc =>
          have hch : chains s a b = some (anc, collectUp s b anc, collectUp s a anc) := by
            unfold chains
            rw [hla, hlb]
            simp only
            rw [hpS, hpT]
            simp only
            rw [hfind]
          rw [findTransform_chains s a b _ _ _ hch] at hnone
          simp at hnone
        | none =>
          refine Or.inr (Or.inr ?_)
          intro x hx hxT
          have := List.find?_eq_none.mp hfind x hx
          exact this (contains_mem.mpr hxT)
      · intro h
        rcases h with h | h | h
        · simp at h
        · simp at h
        · have hfind : pS.find? (fun f => pT.contains f) = none := by
            rw [List.find?_eq_none]
            intro x hx
            simp only [Bool.not_eq_true]
            rcases hcon : pT.contains x with hfalse | htrue
            · rfl
            · exact absurd (contains_mem.mp hcon) (h x hx)
          unfold findTransform chains
          rw [hla, hlb]
          simp only
          rw [hpS, hpT]
          simp only
          rw [hfind]

theorem rotM3_qId : rotM3 qId = mat3Id := by
  ext <;> simp [rotM3, qId, mat3Id]

theorem linkM4_id_rot (t : TransformQ) (h : t.rotation = qId) :
    linkM4 t = transM4 t.translation := by
  rw [linkM4, h, rotM3_qId, transM4]

theorem transM4_mul (a b : Vec3) :
    mulM4 (transM4 a) (transM4 b) = transM4 (vadd a b) := by
  ext <;> simp [mulM4, transM4, affM4, mat3Id, vadd] <;> ring

theorem transM4_vzero : transM4 vzero = idM4 := rfl

theorem det4_transM4 (v : Vec3) : det4 (transM4 v) = 1 := by
  rw [transM4, det4_affM4]
  norm_num [det3m, det3v, mat3Id]

theorem v3add_neg (v : Vec3) : vadd v (vneg v) = vzero := by
  ext <;> simp [vadd, vneg, vzero]

theorem m4invert_transM4 (v : Vec3) : m4invert (transM4 v) = transM4 (vneg v) := by
  refine m4invert_eq_of_mul _ _ (by rw [det4_transM4]; exact one_ne_zero) ?_
  rw [transM4_mul, v3add_neg, transM4_vzero]

theorem invChainM4_cons (x : M4) (l : List M4) :
    invChainM4 (x :: l) = mulM4 (invChainM4 l) (m4invert x) := by
  simp only [invChainM4, List.reverse_cons, List.map_append, List.map_cons,
    List.map_nil, listProdM4_append]
  rw [show listProdM4 [m4invert x] = m4invert x from by
    simp only [listProdM4, List.foldl_cons, List.foldl_nil]
    exact m4mul_id_left _]

theorem listProdM4_id_rot (cs : List TransformQ) (h : ∀ t ∈ cs, t.rotation = qId) :
    listProdM4 (cs.map linkM4) = transM4 (sumTranslations cs) := by
  induction cs with
  | nil => rfl
  | cons t rest ih =>
    rw [List.map_cons, listProdM4_cons,
      linkM4_id_rot t (h t (List.mem_cons_self t rest)),
      ih fun x hx => h x (List.mem_cons_of_mem t hx), transM4_mul]
    rfl

theorem v3neg_add (a b : Vec3) :
    vadd (vneg b) (vneg a) = vneg (vadd a b) := by
  ext <;> simp [vadd, vneg] <;> ring

theorem invChainM4_id_rot (ct : List TransformQ) (h : ∀ t ∈ ct, t.rotation = qId) :
    invChainM4 (ct.map linkM4) = transM4 (vneg (sumTranslations ct)) := by
  induction ct with
  | nil => rfl
  | cons t rest ih =>
    rw [List.map_cons, invChainM4_cons,
      linkM4_id_rot t (h t (List.mem_cons_self t rest)),
      ih fun x hx => h x (List.mem_cons_of_mem t hx),
      m4invert_transM4, transM4_mul]
    rw [show sumTranslations (t :: rest) = vadd t.translation (sumTranslations rest)
      from rfl, v3neg_add]

theorem mat3Apply_id (v : Vec3) : mat3Apply mat3Id v = v := by
  ext <;> simp [mat3Apply, mat3Id]

theorem applyTQ_id_rot (t : TransformQ) (h : t.rotation = qId) (v : Vec3) :
    applyTQ t v = vadd v t.translation := by
  rw [applyTQ, h, rotM3_qId, mat3Apply_id]

theorem applyInvTQ_id_rot (t : TransformQ) (h : t.rotation = qId) (v : Vec3) :
    applyInvTQ t v = vadd v (vneg t.translation) := by
  rw [applyInvTQ, linkM4_id_rot t h, m4invert_transM4]
  show vadd (mat3Apply mat3Id v) (vneg t.translation) = vadd v (vneg t.translation)
  rw [mat3Apply_id]

theorem v3add_assoc (a b c : Vec3) : vadd (vadd a b) c = vadd a (vadd b c) := by
  ext <;> simp [vadd] <;> ring

theorem v3add_comm (a b : Vec3) : vadd a b = vadd b a := by
  ext <;> simp [vadd] <;> ring

theorem v3add_zero (a : Vec3) : vadd a vzero = a := by
  ext <;> simp [vadd, vzero]

theorem sumTranslations_append (l₁ l₂ : List TransformQ) :
    sumTranslations (l₁ ++ l₂) = vadd (sumTranslations l₁) (sumTranslations l₂) := by
  induction l₁ with
  | nil =>
    rw [List.nil_append]
    show sumTranslations l₂ = vadd vzero (sumTranslations l₂)
    rw [v3add_comm, v3add_zero]
  | cons t rest ih =>
    rw [List.cons_append]
    show vadd t.translation (sumTranslations (rest ++ l₂)) = _
    rw [ih]
    show _ = vadd (vadd t.translation (sumTranslations rest)) (sumTranslations l₂)
    rw [v3add_assoc]

theorem sumTranslations_reverse (l : List TransformQ) :
    sumTranslations l.reverse = sumTranslations l := by
  induction l with
  | nil => rfl
  | cons t rest ih =>
    rw [List.reverse_cons, sumTranslations_append, ih]
    show vadd (sumTranslations rest) (vadd t.translation vzero) =
      vadd t.translation (sumTranslations rest)
    rw [v3add_zero, v3add_comm]

theorem foldl_applyTQ_id_rot (cs : List TransformQ)
    (h : ∀ t ∈ cs, t.rotation = qId) (v : Vec3) :
    cs.foldl (fun w t => applyTQ t w) v = vadd v (sumTranslations cs) := by
  induction cs generalizing v with
  | nil => rw [List.foldl_nil]; exact (v3add_zero v).symm
  | cons t rest ih =>
    rw [List.foldl_cons, applyTQ_id_rot t (h t (List.mem_cons_self t rest)),
      ih (fun x hx => h x (List.mem_cons_of_mem t hx)), v3add_assoc]
    rfl

theorem foldl_applyInvTQ_id_rot (ct : List TransformQ)
    (h : ∀ t ∈ ct, t.rotation = qId) (v : Vec3) :
    ct.foldl (fun w t => applyInvTQ t w) v = vadd v (vneg (sumTranslations ct)) := by
  induction ct generalizing v with
  | nil =>
    rw [List.foldl_nil]
    show v = vadd v (vneg vzero)
    ext <;> simp [vadd, vneg, vzero]
  | cons t rest ih =>
    rw [List.foldl_cons, applyInvTQ_id_rot t (h t (List.mem_cons_self t rest)),
      ih (fun x hx => h x (List.mem_cons_of_mem t hx)), v3add_assoc]
    show vadd v (vadd (vneg t.translation) (vneg (sumTranslations rest))) = _
    congr 1
    show _ = vneg (vadd t.translation (sumTranslations rest))
    ext <;> simp [vadd, vneg] <;> ring

theorem decomposeTM_transM4 (v : Vec3) : decomposeTM (transM4 v) = ⟨v, mat3Id⟩ := rfl

/-- Claim C1 (amended; see the counterexample below for the original claim):
whenever `findTransform(A, B)` finds a common ancestor and every rotation
stored on the two collected chains is the identity quaternion, the returned
transform is the source→target mapping: its translation is the sum of the
source-chain translations minus the sum of the target-chain translations,
its rotation is the identity, and applying it to any point realises the
spec's coordinate map (up the source chain, down the target chain by
inverse links).  In particular the `map`/`base`/`sensor` example returns
translation `(1,1,0)` with identity rotation (see the witness). -/
theorem findTransform_identity_rotations (s : TF2State) (A B anc : String)
    (cs ct : List TransformQ) (hc : chains s A B = some (anc, cs, ct))
    (hcs : ∀ t ∈ cs, t.rotation = qId) (hct : ∀ t ∈ ct, t.rotation = qId) :
    findTransform s A B =
      some ⟨vadd (sumTranslations cs) (vneg (sumTranslations ct)), mat3Id⟩ ∧
    ∀ v, applyTM ⟨vadd (sumTranslations cs) (vneg (sumTranslations ct)), mat3Id⟩ v =
      specCoordMap cs ct v := by
  constructor
  · rw [findTransform_chains s A B anc cs ct hc, listProdM4_id_rot cs hcs,
      invChainM4_id_rot ct hct, transM4_mul]
    rfl
  · intro v
    rw [specCoordMap, foldl_applyTQ_id_rot cs hcs v,
      foldl_applyInvTQ_id_rot ct.reverse
        (fun t ht => hct t (List.mem_reverse.mp ht)) _,
      sumTranslations_reverse]
    show vadd (mat3Apply mat3Id v)
      (vadd (sumTranslations cs) (vneg (sumTranslations ct))) = _
    rw [mat3Apply_id, v3add_assoc]

theorem chains_stateRot : chains stateRot "T" "S" =
    some ("A", [⟨vzero, q180⟩], [⟨⟨0, 1, 0⟩, qId⟩]) := rfl

/-- Claim C1 counterexample: the claim that `findTransform(target, source)`
returns the transform mapping source-frame coordinates to target-frame
coordinates fails as soon as a chain rotation is not the identity, because
the source loop multiplies the link matrices in walk order (source side on
the left) instead of ancestor side first.  Concretely, with `T` and `S`
both children of `A` (`T` offset `(0,1,0)`, `S` rotated 180° about x), the
origin of the source frame `S` sits at `(0,-1,0)` in target coordinates,
but the transform `findTransform("T","S")` returns maps it to `(0,1,0)`. -/
theorem findTransform_not_coordinate_map :
    chains stateRot "T" "S" = some ("A", [⟨vzero, q180⟩], [⟨⟨0, 1, 0⟩, qId⟩]) ∧
    ∃ res, findTransform stateRot "T" "S" = some res ∧
      specCoordMap [⟨vzero, q180⟩] [⟨⟨0, 1, 0⟩, qId⟩] vzero = ⟨0, -1, 0⟩ ∧
      applyTM res vzero = ⟨0, 1, 0⟩ ∧
      applyTM res vzero ≠
        specCoordMap [⟨vzero, q180⟩] [⟨⟨0, 1, 0⟩, qId⟩] vzero := by
  refine ⟨chains_stateRot, ?_⟩
  have h1 := findTransform_chains stateRot "T" "S" "A"
    [⟨vzero, q180⟩] [⟨⟨0, 1, 0⟩, qId⟩] chains_stateRot
  refine ⟨_, h1, ?_, ?_, ?_⟩
  · rw [specCoordMap]
    simp only [List.reverse_cons, List.reverse_nil, List.nil_append,
      List.foldl_cons, List.foldl_nil]
    rw [applyInvTQ_id_rot _ rfl]
    show vadd (applyTQ ⟨vzero, q180⟩ vzero) (vneg ⟨0, 1, 0⟩) = ⟨0, -1, 0⟩
    rw [applyTQ]
    ext <;> norm_num [vadd, vneg, vzero, mat3Apply, rotM3, q180]
  · rw [show listProdM4 ([⟨vzero, q180⟩].map linkM4) = linkM4 ⟨vzero, q180⟩ from by
      rw [List.map_cons, List.map_nil, listProdM4_cons]
      exact m4mul_id_right _]
    rw [show invChainM4 ([(⟨⟨0, 1, 0⟩, qId⟩ : TransformQ)].map linkM4) =
        transM4 (vneg ⟨0, 1, 0⟩) from by
      rw [List.map_cons, List.map_nil, invChainM4_cons,
        linkM4_id_rot _ rfl, m4invert_transM4]
      show mulM4 idM4 _ = _
      exact m4mul_id_left _]
    rw [applyTM]
    ext <;> norm_num [decomposeTM, mulM4, linkM4, affM4, transM4, rotM3,
      q180, mat3Id, mat3Apply, vadd, vneg, vzero]
  · rw [specCoordMap]
    simp only [List.reverse_cons, List.reverse_nil, List.nil_append,
      List.foldl_cons, List.foldl_nil]
    rw [applyInvTQ_id_rot _ rfl]
    intro hcontra
    have h2 : applyTM (decomposeTM (mulM4 (listProdM4 ([⟨vzero, q180⟩].map linkM4))
        (invChainM4 ([(⟨⟨0, 1, 0⟩, qId⟩ : TransformQ)].map linkM4)))) vzero =
        vadd (applyTQ ⟨vzero, q180⟩ vzero) (vneg ⟨0, 1, 0⟩) := hcontra
    rw [show listProdM4 ([⟨vzero, q180⟩].map linkM4) = linkM4 ⟨vzero, q180⟩ from by
      rw [List.map_cons, List.map_nil, listProdM4_cons]
      exact m4mul_id_right _] at h2
    rw [show invChainM4 ([(⟨⟨0, 1, 0⟩, qId⟩ : TransformQ)].map linkM4) =
        transM4 (vneg ⟨0, 1, 0⟩) from by
      rw [List.map_cons, List.map_nil, invChainM4_cons,
        linkM4_id_rot _ rfl, m4invert_transM4]
      show mulM4 idM4 _ = _
      exact m4mul_id_left _] at h2
    rw [applyTM, applyTQ] at h2
    have h3 := congrArg Vec3.y h2
    norm_num [decomposeTM, mulM4, linkM4, affM4, transM4, rotM3, q180,
      mat3Id, mat3Apply, vadd, vneg, vzero] at h3

/-- Witness for C1 (amended): instantiating the identity-rotation theorem
at the spec's basic-composition state yields exactly the required
`{translation: (1,1,0), rotation: identity}`. -/
theorem findTransform_identity_rotations_witness :
    findTransform stateBasic "map" "sensor" = some ⟨⟨1, 1, 0⟩, mat3Id⟩ := by
  have h := (findTransform_identity_rotations stateBasic "map" "sensor" "map"
    [⟨⟨0, 1, 0⟩, qId⟩, ⟨⟨1, 0, 0⟩, qId⟩] [] rfl
    (by
      intro t ht
      rcases List.mem_cons.mp ht with rfl | ht2
      · rfl
      · rcases List.mem_cons.mp ht2 with rfl | ht3
        · rfl
        · simp at ht3)
    (fun t ht => absurd ht (List.not_mem_nil t))).1
  rw [h]
  norm_num [sumTranslations, vadd, vneg, vzero]

/-- Witness for C3: the identity query on a concrete populated tree. -/
theorem findTransform_self_identity_witness :
    findTransform stateBasic "base" "base" = some idTM :=
  findTransform_self_identity stateBasic "base"
    ⟨some "map", some ⟨⟨1, 0, 0⟩, qId⟩⟩ rfl rfl

theorem lookup_stateBasic_base :
    stateBasic.frames.lookup "base" = some ⟨some "map", some ⟨⟨1, 0, 0⟩, qId⟩⟩ :=
  rfl

/-- Witness for C4: on the basic-composition state the two opposite
queries return `(1,1,0)` and `(-1,-1,0)` (identity rotations), and the
theorem instantiates to show their composition is the identity transform. -/
theorem findTransform_inverse_consistent_witness :
    unitRotationsB stateBasic = true ∧
    composeTM ⟨⟨1, 1, 0⟩, mat3Id⟩ ⟨⟨-1, -1, 0⟩, mat3Id⟩ = idTM := by
  have hframes : stateBasic.frames =
      [("map", ⟨none, none⟩),
       ("base", ⟨some "map", some ⟨⟨1, 0, 0⟩, qId⟩⟩),
       ("sensor", ⟨some "base", some ⟨⟨0, 1, 0⟩, qId⟩⟩)] := rfl
  have hq : unitRotationsB stateBasic = true := by
    rw [unitRotationsB, hframes]
    norm_num [List.all_cons, qNormSq, qId]
  have hcs : ∀ t ∈ [(⟨⟨0, 1, 0⟩, qId⟩ : TransformQ), ⟨⟨1, 0, 0⟩, qId⟩],
      t.rotation = qId := by
    intro t ht
    rcases List.mem_cons.mp ht with rfl | ht2
    · rfl
    · rcases List.mem_cons.mp ht2 with rfl | ht3
      · rfl
      · simp at ht3
  have hu : findTransform stateBasic "map" "sensor" = some ⟨⟨1, 1, 0⟩, mat3Id⟩ := by
    have h := findTransform_chains stateBasic "map" "sensor" "map"
      [⟨⟨0, 1, 0⟩, qId⟩, ⟨⟨1, 0, 0⟩, qId⟩] [] rfl
    rw [h, listProdM4_id_rot _ hcs]
    show some (decomposeTM (mulM4 (transM4 _) idM4)) = _
    rw [m4mul_id_right, decomposeTM_transM4]
    norm_num [sumTranslations, vadd, vzero]
  have hv : findTransform stateBasic "sensor" "map" = some ⟨⟨-1, -1, 0⟩, mat3Id⟩ := by
    have h := findTransform_chains stateBasic "sensor" "map" "map" []
      [⟨⟨0, 1, 0⟩, qId⟩, ⟨⟨1, 0, 0⟩, qId⟩] rfl
    rw [h, invChainM4_id_rot _ hcs]
    show some (decomposeTM (mulM4 idM4 (transM4 _))) = _
    rw [m4mul_id_left, decomposeTM_transM4]
    norm_num [sumTranslations, vadd, vneg, vzero]
  exact ⟨hq, findTransform_inverse_consistent stateBasic "map" "sensor"
    ⟨⟨1, 1, 0⟩, mat3Id⟩ ⟨⟨-1, -1, 0⟩, mat3Id⟩ hq hu hv⟩

/-- Witness for C5: on the basic state the unknown-frame query
`findTransform("nope","also-nope")` is null, and on a two-tree state the
cross-tree query `findTransform("b","y")` is null (disjoint subtrees). -/
theorem findTransform_none_iff_witness :
    findTransform stateBasic "nope" "also-nope" = none ∧
    findTransform stateTwoTrees "b" "y" = none := by
  constructor
  · exact (findTransform_none_iff stateBasic "nope" "also-nope" rfl).mpr
      (Or.inl rfl)
  · refine (findTransform_none_iff stateTwoTrees "b" "y" rfl).mpr
      (Or.inr (Or.inr ?_))
    intro f hf
    have hpy : pathToRoot stateTwoTrees "y" = some ["y", "x"] := rfl
    have hpb : pathToRoot stateTwoTrees "b" = some ["b", "a"] := rfl
    rw [hpy] at hf
    rw [hpb]
    simp only [Option.getD_some] at hf ⊢
    rcases List.mem_cons.mp hf with rfl | hf2
    · decide
    · rcases List.mem_cons.mp hf2 with rfl | hf3
      · decide
      · simp at hf3

theorem lookup_append_of_some {l l₂ : List (String × Frame)} {x : String}
    {v : Frame} (h : l.lookup x = some v) : (l ++ l₂).lookup x = some v := by
  induction l with
  | nil => simp [List.lookup] at h
  | cons e t ih =>
    rw [List.cons_append, List.lookup] at *
    cases hbe : x == e.1 with
    | true => simp only [hbe] at h ⊢; exact h
    | false => simp only [hbe] at h ⊢; exact ih h

theorem lookup_append_of_none {l : List (String × Frame)} (l₂ : List (String × Frame))
    {x : String} (h : l.lookup x = none) : (l ++ l₂).lookup x = l₂.lookup x := by
  induction l with
  | nil => rfl
  | cons e t ih =>
    rw [List.cons_append, List.lookup] at *
    cases hbe : x == e.1 with
    | true => simp only [hbe] at h; exact absurd h (by simp)
    | false => simp only [hbe] at h ⊢; exact ih h

theorem lookup_setParent_update (l : List (String × Frame)) (cid x : String)
    (fr' : Frame) :
    (l.map (fun e => if e.1 = cid then (e.1, fr') else e)).lookup x =
      if x = cid then (l.lookup x).map (fun _ => fr') else l.lookup x := by
  induction l with
  | nil => simp [List.lookup]
  | cons e t ih =>
    rw [List.map_cons]
    by_cases hec : e.1 = cid
    · rw [if_pos hec]
      cases hbe : x == e.1 with
      | true =>
        have hxe : x = e.1 := eq_of_beq hbe
        rw [if_pos (hxe.trans hec)]
        simp only [List.lookup, hbe]
        rfl
      | false =>
        have hxe : x ≠ e.1 := fun hh => by simp [hh] at hbe
        have hxc : ¬ x = cid := fun h => hxe (h.trans hec.symm)
        rw [if_neg hxc]
        simp only [List.lookup, hbe]
        rw [ih, if_neg hxc]
    · rw [if_neg hec]
      cases hbe : x == e.1 with
      | true =>
        have hxe : x = e.1 := eq_of_beq hbe
        have hxc : ¬ x = cid := fun h => hec (by rw [← hxe]; exact h)
        rw [if_neg hxc]
        simp only [List.lookup, hbe]
      | false =>
        simp only [List.lookup, hbe]
        exact ih

theorem parentOf_getOrCreateFrame (s : TF2State) (fid x : String) :
    parentOf (getOrCreateFrame s fid) x = parentOf s x := by
  unfold getOrCreateFrame
  cases h : s.frames.lookup fid with
  | some fr => rfl
  | none =>
    show parentOf ⟨s.frames ++ [(fid, ⟨none, none⟩)], _⟩ x = parentOf s x
    unfold parentOf
    cases hx : s.frames.lookup x with
    | some v => rw [lookup_append_of_some hx]
    | none =>
      rw [lookup_append_of_none _ hx]
      show (match List.lookup x [(fid, (⟨none, none⟩ : Frame))] with
        | some f => f.parent
        | none => none) = none
      rw [List.lookup]
      cases hbe : x == fid with
      | true => rfl
      | false => rfl

theorem lookup_getOrCreateFrame_self (s : TF2State) (fid : String) :
    ∃ fr, (getOrCreateFrame s fid).frames.lookup fid = some fr := by
  unfold getOrCreateFrame
  cases h : s.frames.lookup fid with
  | some fr => exact ⟨fr, h⟩
  | none =>
    show ∃ fr, (s.frames ++ [(fid, (⟨none, none⟩ : Frame))]).lookup fid = some fr
    refine ⟨(⟨none, none⟩ : Frame), ?_⟩
    rw [lookup_append_of_none _ h]
    rw [List.lookup]
    simp

theorem frames_setParentState (s : TF2State) (cid pid : String) (t : TransformQ) :
    (setParentState s cid pid t).frames =
      s.frames.map (fun e => if e.1 = cid then (e.1, ⟨some pid, some t⟩) else e) := rfl

theorem parentOf_rootFrame_irrelevant (f : List (String × Frame))
    (r r' : Option String) (x : String) :
    parentOf ⟨f, r⟩ x = parentOf ⟨f, r'⟩ x := rfl

/-- The single behavioural fact about `addTransform` on parent edges: the
child frame's parent becomes the message's parent id and every other
frame's parent edge is untouched. -/
theorem parentOf_addTransform (s : TF2State) (ts : TransformStamped) (x : String) :
    parentOf (addTransform s ts) x =
      if x = ts.child_frame_id then some ts.header.frame_id else parentOf s x := by
  unfold addTransform
  set s2 := getOrCreateFrame (getOrCreateFrame s ts.header.frame_id) ts.child_frame_id
    with hs2
  have hs2par : ∀ y, parentOf s2 y = parentOf s y := by
    intro y
    rw [hs2, parentOf_getOrCreateFrame, parentOf_getOrCreateFrame]
  have hmain : ∀ r : Option String,
      parentOf ⟨(setParentState s2 ts.child_frame_id ts.header.frame_id
        ts.transform).frames, r⟩ x =
      if x = ts.child_frame_id then some ts.header.frame_id else parentOf s x := by
    intro r
    unfold parentOf
    rw [frames_setParentState, lookup_setParent_update]
    by_cases hx : x = ts.child_frame_id
    · rw [if_pos hx, if_pos hx]
      obtain ⟨fr, hfr⟩ := lookup_getOrCreateFrame_self
        (getOrCreateFrame s ts.header.frame_id) ts.child_frame_id
      rw [hx, hfr]
      rfl
    · rw [if_neg hx, if_neg hx]
      have := hs2par x
      unfold parentOf at this
      exact this
  by_cases hroot : (setParentState s2 ts.child_frame_id ts.header.frame_id
      ts.transform).rootFrame = some ts.child_frame_id
  · rw [if_pos hroot]
    exact hmain _
  · rw [if_neg hroot]
    exact hmain _

theorem iterParent_add (s : TF2State) (a b : Nat) (fid : String) :
    iterParent s (a + b) fid =
      (iterParent s a fid).bind (fun y => iterParent s b y) := by
  induction a generalizing fid with
  | zero => simp [iterParent, Nat.zero_add]
  | succ n ih =>
    have hk : n + 1 + b = (n + b) + 1 := by omega
    rw [hk]
    show (match parentOf s fid with
        | some p => iterParent s (n + b) p
        | none => none) =
      (match parentOf s fid with
        | some p => iterParent s n p
        | none => none).bind (fun y => iterParent s b y)
    cases hp : parentOf s fid with
    | some p => simp only [ih p]
    | none => rfl

theorem iterParent_step (s : TF2State) (k : Nat) (fid p : String)
    (hp : parentOf s fid = some p) :
    iterParent s (k + 1) fid = iterParent s k p := by
  show (match parentOf s fid with
    | some q => iterParent s k q
    | none => none) = iterParent s k p
  rw [hp]

/-- Two states with the same parent edges off `cid` agree on every walk
that never passes through `cid`. -/
theorem iterParent_avoid (s s' : TF2State) (cid : String)
    (hpar : ∀ x, x ≠ cid → parentOf s' x = parentOf s x) :
    ∀ (k : Nat) (a b : String), iterParent s' k a = some b →
      (∀ i, i < k → iterParent s' i a ≠ some cid) →
      iterParent s k a = some b := by
  intro k
  induction k with
  | zero => intro a b h _; exact h
  | succ n ih =>
    intro a b h havoid
    have hane : a ≠ cid := by
      intro hcontra
      exact havoid 0 (Nat.succ_pos n) (by rw [hcontra]; rfl)
    have hpe : parentOf s' a = parentOf s a := hpar a hane
    rw [show iterParent s' (n + 1) a =
        (match parentOf s' a with
          | some p => iterParent s' n p
          | none => none) from rfl] at h
    cases hp : parentOf s' a with
    | none => rw [hp] at h; simp at h
    | some p =>
      rw [hp] at h
      simp only at h
      have hstep : ∀ i, i < n → iterParent s' i p ≠ some cid := by
        intro i hi
        have := havoid (i + 1) (by omega)
        rw [iterParent_step s' i a p hp] at this
        exact this
      have := ih p b h hstep
      rw [iterParent_step s n a p (hpe ▸ hp)]
      exact this

/-- If the updated state can walk from the new parent to the child, the old
state could already reach the child from that parent. -/
theorem reach_before_update (s s' : TF2State) (cid : String)
    (hpar : ∀ x, x ≠ cid → parentOf s' x = parentOf s x) (pid : String) :
    ∀ j, iterParent s' j pid = some cid → Reaches s pid cid := by
  intro j
  induction j using Nat.strong_induction_on with
  | _ j ih =>
    intro hj
    by_cases hex : ∃ i, i < j ∧ iterParent s' i pid = some cid
    · obtain ⟨i, hi, hic⟩ := hex
      exact ih i hi hic
    · push_neg at hex
      exact ⟨j, iterParent_avoid s s' cid hpar j pid cid hj
        fun i hi => hex i hi⟩

/-- Acyclicity preservation: `addTransform` keeps the state acyclic
provided the message's parent frame cannot already reach its child frame
(in particular, parent ≠ child). -/
theorem acyclic_addTransform (s : TF2State) (ts : TransformStamped)
    (hA : Acyclic s)
    (hG : ¬ Reaches s ts.header.frame_id ts.child_frame_id) :
    Acyclic (addTransform s ts) := by
  set cid := ts.child_frame_id with hcid
  set pid := ts.header.frame_id with hpid
  set s' := addTransform s ts with hs'
  have hpar : ∀ x, x ≠ cid → parentOf s' x = parentOf s x := by
    intro x hx
    rw [hs', parentOf_addTransform, if_neg hx]
  have hpcid : parentOf s' cid = some pid := by
    rw [hs', parentOf_addTransform, if_pos rfl]
  intro x k hk hcycle
  by_cases hex : ∃ i, i < k ∧ iterParent s' i x = some cid
  · obtain ⟨i, hi, hic⟩ := hex
    have hrot1 : iterParent s' (k - i) cid = some x := by
      have := iterParent_add s' i (k - i) x
      rw [show i + (k - i) = k from by omega, hcycle, hic] at this
      exact this.symm
    have hcidcycle : iterParent s' k cid = some cid := by
      have := iterParent_add s' (k - i) i cid
      rw [show k - i + i = k from by omega, hrot1] at this
      simp only [Option.some_bind] at this
      rw [this, hic]
    have hk1 : iterParent s' (k - 1) pid = some cid := by
      have := iterParent_step s' (k - 1) cid pid hpcid
      rw [show k - 1 + 1 = k from by omega] at this
      rw [← this, hcidcycle]
    exact hG (reach_before_update s s' cid hpar pid (k - 1) hk1)
  · push_neg at hex
    have := iterParent_avoid s s' cid hpar k x x hcycle fun i hi => hex i hi
    exact hA x k hk this

theorem acyclic_emptyState : Acyclic emptyState := by
  intro fid k hk
  cases k with
  | zero => omega
  | succ n =>
    show (match parentOf emptyState fid with
      | some p => iterParent emptyState n p
      | none => none) ≠ some fid
    have : parentOf emptyState fid = none := rfl
    rw [this]
    simp

/-- Claim C2 (amended; see the counterexample below for the original claim):
starting from any acyclic state — in particular the empty state — a
sequence of `addTransform`/`addTransforms` applications keeps the frame
graph acyclic provided each applied entry is guarded: at its application
point, the entry's parent frame cannot already reach its child frame via
parent edges (this excludes parent = child and any entry that would make a
frame its own ancestor).  Without the guard the code accepts the entry and
creates a cycle. -/
theorem addTransformsState_acyclic (s : TF2State) (l : List TransformStamped)
    (hA : Acyclic s) (hG : Guarded s l) : Acyclic (addTransformsState s l) := by
  induction l generalizing s with
  | nil => exact hA
  | cons ts rest ih =>
    obtain ⟨hg, hrest⟩ := hG
    exact ih (addTransform s ts) (acyclic_addTransform s ts hA hg) hrest

/-- Claim C2 counterexample: the input sequence `addTransform("a","b")`,
`addTransform("b","a")` — explicitly included in the claim — produces a
state in which frame `"a"` reaches itself in two parent steps, so the
resulting frame graph is not acyclic.  (The update algorithm has no cycle
guard; `findTransform` would loop forever on this state.) -/
theorem addTransforms_creates_cycle :
    hasFrame stateCycle "a" = true ∧
    iterParent stateCycle 2 "a" = some "a" ∧
    ¬ Acyclic stateCycle :=
  ⟨rfl, rfl, fun h => h "a" 2 (by omega) rfl⟩

theorem not_reaches_of_dead (s : TF2State) (a b : String) (n : Nat)
    (h1 : ∀ i, i ≤ n → iterParent s i a ≠ some b)
    (h2 : iterParent s n a = none) : ¬ Reaches s a b := by
  rintro ⟨k, hk⟩
  by_cases hkn : k ≤ n
  · exact h1 k hkn hk
  · have hnone : iterParent s k a = none := by
      have := iterParent_add s n (k - n) a
      rw [show n + (k - n) = k from by omega, h2] at this
      simpa using this
    rw [hnone] at hk
    simp at hk

/-- Witness for C2 (amended): the basic two-entry sequence is guarded, so
the theorem yields acyclicity of the resulting state. -/
theorem addTransformsState_acyclic_witness :
    Guarded emptyState
      [tfEntry "map" "base" ⟨1, 0, 0⟩ qId, tfEntry "base" "sensor" ⟨0, 1, 0⟩ qId] ∧
    Acyclic stateBasic := by
  have hg : Guarded emptyState
      [tfEntry "map" "base" ⟨1, 0, 0⟩ qId, tfEntry "base" "sensor" ⟨0, 1, 0⟩ qId] := by
    refine ⟨?_, ?_, trivial⟩
    · exact not_reaches_of_dead emptyState "map" "base" 1
        (by intro i hi; interval_cases i <;> decide) rfl
    · exact not_reaches_of_dead
        (addTransform emptyState (tfEntry "map" "base" ⟨1, 0, 0⟩ qId))
        "base" "sensor" 2
        (by intro i hi; interval_cases i <;> decide) rfl
  exact ⟨hg, addTransformsState_acyclic emptyState
    [tfEntry "map" "base" ⟨1, 0, 0⟩ qId, tfEntry "base" "sensor" ⟨0, 1, 0⟩ qId]
    acyclic_emptyState hg⟩

theorem getOrCreateFrame_of_some (s : TF2State) (fid : String) (fr : Frame)
    (h : s.frames.lookup fid = some fr) : getOrCreateFrame s fid = s := by
  unfold getOrCreateFrame
  rw [h]

theorem getOrCreateFrame_of_none (s : TF2State) (fid : String)
    (h : s.frames.lookup fid = none) :
    getOrCreateFrame s fid =
      ⟨s.frames ++ [(fid, ⟨none, none⟩)],
        match s.rootFrame with
        | none => some fid
        | some r => some r⟩ := by
  unfold getOrCreateFrame
  rw [h]

theorem rootFrame_gOC_of_some_root (s : TF2State) (fid r : String)
    (h : s.rootFrame = some r) : (getOrCreateFrame s fid).rootFrame = some r := by
  cases hlk : s.frames.lookup fid with
  | some fr => rw [getOrCreateFrame_of_some s fid fr hlk]; exact h
  | none => rw [getOrCreateFrame_of_none s fid hlk, h]

theorem rootFrame_setParentState (s : TF2State) (cid pid : String)
    (t : TransformQ) : (setParentState s cid pid t).rootFrame = s.rootFrame := rfl

/-- Root-pointer behaviour of `addTransform`: after resolving/creating the
two frames, the root moves to the parent id exactly when it sat on the
child id. -/
theorem rootFrame_addTransform (s : TF2State) (ts : TransformStamped) :
    (addTransform s ts).rootFrame =
      if (getOrCreateFrame (getOrCreateFrame s ts.header.frame_id)
            ts.child_frame_id).rootFrame = some ts.child_frame_id
      then some ts.header.frame_id
      else (getOrCreateFrame (getOrCreateFrame s ts.header.frame_id)
            ts.child_frame_id).rootFrame := by
  unfold addTransform
  set s2 := getOrCreateFrame (getOrCreateFrame s ts.header.frame_id)
    ts.child_frame_id with hs2
  have hsp : (setParentState s2 ts.child_frame_id ts.header.frame_id
    ts.transform).rootFrame = s2.rootFrame := rfl
  by_cases hc : s2.rootFrame = some ts.child_frame_id
  · rw [if_pos (hsp.trans hc), if_pos hc]
  · rw [if_neg (fun hh => hc (hsp.symm.trans hh)), if_neg hc]
    exact hsp

theorem parentOf_empty_frames (s : TF2State) (h : s.frames = []) (x : String) :
    parentOf s x = none := by
  unfold parentOf
  rw [h]
  rfl

theorem rootInv_getOrCreateFrame (s : TF2State) (fid : String)
    (hI : RootInv s) : RootInv (getOrCreateFrame s fid) := by
  obtain ⟨h1, h2⟩ := hI
  cases hlk : s.frames.lookup fid with
  | some fr =>
    rw [getOrCreateFrame_of_some s fid fr hlk]
    exact ⟨h1, h2⟩
  | none =>
    cases hr : s.rootFrame with
    | some r =>
      constructor
      · intro hnone
        rw [rootFrame_gOC_of_some_root s fid r hr] at hnone
        simp at hnone
      · intro r' hr'
        rw [rootFrame_gOC_of_some_root s fid r hr] at hr'
        rw [parentOf_getOrCreateFrame]
        exact Option.some_inj.mp hr' ▸ h2 r hr
    | none =>
      have hfr : s.frames = [] := h1 hr
      constructor
      · intro hnone
        rw [getOrCreateFrame_of_none s fid hlk, hr] at hnone
        simp at hnone
      · intro r' _
        rw [parentOf_getOrCreateFrame]
        exact parentOf_empty_frames s hfr r'

theorem rootInv_addTransform (s : TF2State) (ts : TransformStamped)
    (hI : RootInv s) (hG : GuardR s ts) : RootInv (addTransform s ts) := by
  obtain ⟨h1, h2⟩ := hI
  obtain ⟨hne, hguard⟩ := hG
  cases hr : s.rootFrame with
  | some r =>
    have hroot2 : (getOrCreateFrame (getOrCreateFrame s ts.header.frame_id)
        ts.child_frame_id).rootFrame = some r :=
      rootFrame_gOC_of_some_root _ ts.child_frame_id r
        (rootFrame_gOC_of_some_root s ts.header.frame_id r hr)
    by_cases hrc : r = ts.child_frame_id
    · have hfin : (addTransform s ts).rootFrame = some ts.header.frame_id := by
        rw [rootFrame_addTransform, if_pos (by rw [hroot2, hrc])]
      constructor
      · intro hnone
        rw [hfin] at hnone
        simp at hnone
      · intro r' hr'
        rw [hfin] at hr'
        rw [(Option.some_inj.mp hr').symm, parentOf_addTransform, if_neg hne]
        rcases hguard with hg | hg
        · exact hg
        · exact absurd (by rw [hr, hrc]) hg
    · have hfin : (addTransform s ts).rootFrame = some r := by
        rw [rootFrame_addTransform,
          if_neg (by rw [hroot2]; exact fun hh => hrc (Option.some_inj.mp hh))]
        exact hroot2
      constructor
      · intro hnone
        rw [hfin] at hnone
        simp at hnone
      · intro r' hr'
        rw [hfin] at hr'
        rw [(Option.some_inj.mp hr').symm, parentOf_addTransform, if_neg hrc]
        exact h2 r hr
  | none =>
    have hfr : s.frames = [] := h1 hr
    have hlkpid : s.frames.lookup ts.header.frame_id = none := by rw [hfr]; rfl
    have hroot1 : (getOrCreateFrame s ts.header.frame_id).rootFrame =
        some ts.header.frame_id := by
      rw [getOrCreateFrame_of_none s ts.header.frame_id hlkpid, hr]
    have hroot2 : (getOrCreateFrame (getOrCreateFrame s ts.header.frame_id)
        ts.child_frame_id).rootFrame = some ts.header.frame_id :=
      rootFrame_gOC_of_some_root _ ts.child_frame_id ts.header.frame_id hroot1
    have hfin : (addTransform s ts).rootFrame = some ts.header.frame_id := by
      rw [rootFrame_addTransform,
        if_neg (by rw [hroot2]; exact fun hh => hne (Option.some_inj.mp hh))]
      exact hroot2
    constructor
    · intro hnone
      rw [hfin] at hnone
      simp at hnone
    · intro r' hr'
      rw [hfin] at hr'
      rw [(Option.some_inj.mp hr').symm, parentOf_addTransform, if_neg hne]
      exact parentOf_empty_frames s hfr ts.header.frame_id

theorem rootInv_addTransformsState (s : TF2State) (l : List TransformStamped)
    (hI : RootInv s) (hG : GuardedR s l) : RootInv (addTransformsState s l) := by
  induction l generalizing s with
  | nil => exact hI
  | cons ts rest ih =>
    obtain ⟨hg, hrest⟩ := hG
    exact ih (addTransform s ts) (rootInv_addTransform s ts hI hg) hrest

theorem rootInv_emptyState : RootInv emptyState :=
  ⟨fun _ => rfl, fun r hr => by simp [emptyState] at hr⟩

/-- Claim C8 (amended; see the counterexample below for the original claim):
the root pointer designates a parentless frame in the initial state, after
`clear()`, and along any run of `getOrCreateFrame` / `addTransform` /
`addTransforms` whose updates are guarded: each applied entry has distinct
parent and child ids and either a parentless parent frame or a non-root
child frame.  The first frame ever referenced becomes root.  When a batch
links the current root beneath a frame that already has a parent, the code
reassigns the root only one level (to the immediate parent), which is what
the counterexample exploits. -/
theorem rootFrame_points_to_parentless :
    RootInv emptyState ∧
    (∀ fid, (getOrCreateFrame emptyState fid).rootFrame = some fid) ∧
    (∀ s fid, RootInv s → RootInv (getOrCreateFrame s fid)) ∧
    (∀ s ts, RootInv s → GuardR s ts → RootInv (addTransform s ts)) ∧
    (∀ s l, RootInv s → GuardedR s l → RootInv (addTransformsState s l)) ∧
    (∀ s, RootInv (clearState s)) :=
  ⟨rootInv_emptyState,
   fun _ => rfl,
   rootInv_getOrCreateFrame, rootInv_addTransform, rootInv_addTransformsState,
   fun _ => ⟨fun _ => rfl, fun r hr => by simp [clearState] at hr⟩⟩

/-- Claim C8 counterexample: after the three updates of `stateRootBug` — a
perfectly acyclic tree `b → a → d → c` — the store's root pointer is
`"d"`, a frame whose parent edge points at `"c"`.  The reassignment only
hops one level, so the claim that a non-null root always designates a
parentless frame is false on a reachable state. -/
theorem rootFrame_not_parentless :
    stateRootBug.rootFrame = some "d" ∧
    parentOf stateRootBug "d" = some "c" ∧
    ¬ RootInv stateRootBug ∧
    Acyclic stateRootBug := by
  refine ⟨rfl, rfl, ?_, ?_⟩
  · intro hI
    have := hI.2 "d" rfl
    rw [show parentOf stateRootBug "d" = some "c" from rfl] at this
    simp at this
  · have h1 : Acyclic (addTransform emptyState (tfEntry "a" "b" vzero qId)) :=
      acyclic_addTransform emptyState _ acyclic_emptyState
        (not_reaches_of_dead emptyState "a" "b" 1
          (by intro i hi; interval_cases i <;> decide) rfl)
    have h2 : Acyclic (addTransform (addTransform emptyState
        (tfEntry "a" "b" vzero qId)) (tfEntry "c" "d" vzero qId)) :=
      acyclic_addTransform _ _ h1
        (not_reaches_of_dead _ "c" "d" 1
          (by intro i hi; interval_cases i <;> decide) rfl)
    have hfinal : Acyclic (addTransform (addTransform (addTransform emptyState
        (tfEntry "a" "b" vzero qId)) (tfEntry "c" "d" vzero qId))
        (tfEntry "d" "a" vzero qId)) :=
      acyclic_addTransform _ _ h2
        (not_reaches_of_dead (addTransform (addTransform emptyState
          (tfEntry "a" "b" vzero qId)) (tfEntry "c" "d" vzero qId)) "d" "a" 2
          (by intro i hi; interval_cases i <;> decide) rfl)
    exact hfinal

/-- Witness for C8 (amended): a guarded two-entry run from the empty state
keeps the invariant; on the resulting state the root is `"map"`, which is
parentless. -/
theorem rootFrame_points_to_parentless_witness :
    RootInv stateBasic ∧ stateBasic.rootFrame = some "map" ∧
    parentOf stateBasic "map" = none := by
  have hI : RootInv stateBasic :=
    rootFrame_points_to_parentless.2.2.2.2.1 emptyState
      [tfEntry "map" "base" ⟨1, 0, 0⟩ qId, tfEntry "base" "sensor" ⟨0, 1, 0⟩ qId]
      rootFrame_points_to_parentless.1
      ⟨⟨by decide, Or.inl rfl⟩, ⟨by decide, Or.inr (by decide)⟩, trivial⟩
  exact ⟨hI, rfl, hI.2 "map" rfl⟩

theorem addTransformRaw_of_wf (s : TF2State) (r : RawTransformStamped)
    (h : wfRaw r = true) :
    ∃ ts, toTS r = some ts ∧ addTransformRaw s r = .ok (addTransform s ts) := by
  obtain ⟨ho, cid, tro⟩ := r
  cases ho with
  | none => simp [wfRaw] at h
  | some hd =>
    cases tro with
    | none => simp [wfRaw] at h
    | some t =>
      obtain ⟨tv, rq⟩ := t
      cases tv with
      | none => simp [wfRaw] at h
      | some v =>
        cases rq with
        | none => simp [wfRaw] at h
        | some q => exact ⟨⟨hd, cid, ⟨v, q⟩⟩, rfl, rfl⟩

theorem addTransformRaw_of_malformed (s : TF2State) (r : RawTransformStamped)
    (h : wfRaw r = false) : addTransformRaw s r = .error (rawErrState s r) := by
  obtain ⟨ho, cid, tro⟩ := r
  cases ho with
  | none => rfl
  | some hd =>
    cases tro with
    | none => rfl
    | some t =>
      obtain ⟨tv, rq⟩ := t
      cases tv with
      | none => rfl
      | some v =>
        cases rq with
        | none => rfl
        | some q => simp [wfRaw] at h

theorem toTS_of_malformed (r : RawTransformStamped) (h : wfRaw r = false) :
    toTS r = none := by
  obtain ⟨ho, cid, tro⟩ := r
  cases ho with
  | none => rfl
  | some hd =>
    cases tro with
    | none => rfl
    | some t =>
      obtain ⟨tv, rq⟩ := t
      cases tv with
      | none => rfl
      | some v =>
        cases rq with
        | none => rfl
        | some q => simp [wfRaw] at h

/-- Claim C6 (amended; see the counterexample below for the original claim):
malformed entries are *not* dropped with a warning.  A batch whose entries
are all well-formed is applied in full and fires the notification exactly
when nonempty; a batch containing a malformed entry (missing header,
transform, translation or rotation) throws at the first such entry: the
well-formed prefix stays applied, the malformed entry itself contributes
only the partial mutation performed before the throw (`rawErrState`: its
two frames resolved/created when only `translation`/`rotation` is missing,
nothing when `header`/`transform` is), everything after it is discarded,
and no change notification fires. -/
theorem addTransformsRaw_spec :
    (∀ (s : TF2State) (l : List RawTransformStamped),
      (∀ r ∈ l, wfRaw r = true) →
      addTransformsRaw s l =
        (addTransformsState s (l.filterMap toTS), false, !l.isEmpty)) ∧
    (∀ (s : TF2State) (l₁ : List RawTransformStamped) (r : RawTransformStamped)
      (l₂ : List RawTransformStamped),
      (∀ x ∈ l₁, wfRaw x = true) → wfRaw r = false →
      addTransformsRaw s (l₁ ++ r :: l₂) =
        (rawErrState (addTransformsState s (l₁.filterMap toTS)) r,
          true, false)) := by
  constructor
  · intro s l
    induction l generalizing s with
    | nil => intro _; rfl
    | cons r rest ih =>
      intro hwf
      obtain ⟨ts, hts, hok⟩ := addTransformRaw_of_wf s r
        (hwf r (List.mem_cons_self r rest))
      show (match addTransformRaw s r with
        | .error se => (se, true, false)
        | .ok s' =>
          match addTransformsRaw s' rest with
          | (sf, threw, _) => (sf, threw, !threw)) = _
      rw [hok]
      simp only
      rw [ih (addTransform s ts) fun x hx => hwf x (List.mem_cons_of_mem r hx)]
      simp only [List.filterMap_cons, hts]
      rfl
  · intro s l₁ r l₂
    induction l₁ generalizing s with
    | nil =>
      intro _ hbad
      show (match addTransformRaw s r with
        | .error se => (se, true, false)
        | .ok s' =>
          match addTransformsRaw s' (l₂) with
          | (sf, threw, _) => (sf, threw, !threw)) = _
      rw [addTransformRaw_of_malformed s r hbad]
      rfl
    | cons x l₁t ih =>
      intro hwf hbad
      obtain ⟨ts, hts, hok⟩ := addTransformRaw_of_wf s x
        (hwf x (List.mem_cons_self x l₁t))
      show (match addTransformRaw s x with
        | .error se => (se, true, false)
        | .ok s' =>
          match addTransformsRaw s' (l₁t ++ r :: l₂) with
          | (sf, threw, _) => (sf, threw, !threw)) = _
      rw [hok]
      simp only
      rw [ih (addTransform s ts) (fun y hy => hwf y (List.mem_cons_of_mem x hy)) hbad]
      simp only [List.filterMap_cons, hts]
      rfl

/-- Claim C6 counterexample: the batch `[rawBad, rawGood]` — an entry with
a missing `translation` followed by a valid one — is not recovered
per-entry.  Both `getOrCreateFrame` calls of the faulty entry run first,
so frames `"map"` and `"base"` are created (parentless, root `"map"`);
then reading `.x` of the missing translation throws, `addTransforms`
aborts, the valid entry is never applied (no frame `"x"` is created), and
no change notification fires; the batch call does throw. -/
theorem malformed_entry_aborts_batch :
    addTransformsRaw emptyState [rawBad, rawGood] =
      (getOrCreateFrame (getOrCreateFrame emptyState "map") "base",
        true, false) ∧
    hasFrame (addTransformsRaw emptyState [rawBad, rawGood]).1 "x" = false ∧
    hasFrame (addTransformsRaw emptyState [rawBad, rawGood]).1 "map" = true ∧
    parentOf (addTransformsRaw emptyState [rawBad, rawGood]).1 "base" = none ∧
    (addTransformsRaw emptyState [rawBad, rawGood]).1.rootFrame = some "map" :=
  ⟨rfl, rfl, rfl, rfl, rfl⟩

/-- Witness for C6 (amended): an all-well-formed batch is applied and
notifies; a batch with a malformed middle entry keeps its prefix plus the
faulty entry's frame creations, throws and does not notify. -/
theorem addTransformsRaw_spec_witness :
    addTransformsRaw emptyState [rawGood] =
      (addTransformsState emptyState [tfEntry "x" "y" vzero qId], false, true) ∧
    addTransformsRaw emptyState [rawGood, rawBad, rawGood] =
      (rawErrState (addTransformsState emptyState [tfEntry "x" "y" vzero qId])
        rawBad, true, false) := by
  have hwf1 : ∀ x ∈ [rawGood], wfRaw x = true := by
    intro x hx
    rcases List.mem_cons.mp hx with rfl | hx2
    · rfl
    · simp at hx2
  constructor
  · have h := addTransformsRaw_spec.1 emptyState [rawGood] hwf1
    rw [h]
    rfl
  · have h := addTransformsRaw_spec.2 emptyState [rawGood] rawBad [rawGood] hwf1 rfl
    rw [show ([rawGood] ++ rawBad :: [rawGood]) = [rawGood, rawBad, rawGood]
      from rfl] at h
    rw [h]
    rfl

theorem notifyRunAux_nonmutating (env : String → List CbAction)
    (henv : ∀ c, env c = []) :
    ∀ (fuel : Nat) (pending reg log : List String), pending.length ≤ fuel →
      notifyRunAux env fuel pending reg log = some (reg, log ++ pending) := by
  intro fuel
  induction fuel with
  | zero =>
    intro pending reg log hlen
    have : pending = [] := List.eq_nil_of_length_eq_zero (by omega)
    subst this
    simp [notifyRunAux]
  | succ n ih =>
    intro pending reg log hlen
    cases pending with
    | nil => simp [notifyRunAux]
    | cons c rest =>
      show (match (env c).foldl applyCbAction (reg, rest) with
        | (reg2, pending2) => notifyRunAux env n pending2 reg2 (log ++ [c])) = _
      rw [henv c]
      simp only [List.foldl_nil]
      rw [ih rest reg (log ++ [c]) (by simp at hlen; omega)]
      simp

/-- Claim C7 (amended: nonempty batches — the original "for every list"
wording fails on the empty batch, see the counterexample): for every
nonempty batch, a single `addTransforms` call applies every entry via
`addTransform` and then invokes each callback registered at that moment
exactly once for the whole batch — not once per entry — provided the
callbacks do not re-register or unsubscribe anything re-entrantly. -/
theorem addTransforms_notifies_once (s : TF2State) (cbs : List String)
    (env : String → List CbAction) (fuel : Nat) (l : List TransformStamped)
    (hl : l ≠ []) (henv : ∀ c, env c = []) (hfuel : cbs.length ≤ fuel)
    (hnd : cbs.Nodup) :
    (addTransformsRun s cbs env fuel l).1 = addTransformsState s l ∧
    (addTransformsRun s cbs env fuel l).2 = some (cbs, cbs) ∧
    ∀ c ∈ cbs, cbs.count c = 1 := by
  refine ⟨rfl, ?_, fun c hc => List.count_eq_one_of_mem hnd hc⟩
  show (if l.isEmpty then some (cbs, []) else notifyRun env fuel cbs) =
    some (cbs, cbs)
  rw [if_neg (by simpa using hl)]
  rw [notifyRun, notifyRunAux_nonmutating env henv fuel cbs cbs [] hfuel]
  rw [List.nil_append]

/-- Claim C7 counterexample: with callback `"a"` registered, the empty batch
invokes it zero times, not once, so "for every list … each registered
callback exactly once" fails on the empty list (cf. C10). -/
theorem empty_batch_invokes_nobody :
    (addTransformsRun emptyState ["a"] (fun _ => []) 5 []).2 = some (["a"], []) ∧
    ([] : List String).count "a" = 0 ∧ ("a" : String) ∈ ["a"] :=
  ⟨rfl, rfl, List.mem_cons_self "a" []⟩

/-- Witness for C7 (amended): a two-entry batch with two registered,
non-mutating callbacks invokes each exactly once. -/
theorem addTransforms_notifies_once_witness :
    (addTransformsRun emptyState ["cb1", "cb2"] (fun _ => []) 5
      [tfEntry "map" "base" ⟨1, 0, 0⟩ qId, tfEntry "base" "sensor" ⟨0, 1, 0⟩ qId]).2 =
      some (["cb1", "cb2"], ["cb1", "cb2"]) ∧
    (["cb1", "cb2"] : List String).count "cb1" = 1 ∧
    (["cb1", "cb2"] : List String).count "cb2" = 1 := by
  have h := addTransforms_notifies_once emptyState ["cb1", "cb2"] (fun _ => []) 5
    [tfEntry "map" "base" ⟨1, 0, 0⟩ qId, tfEntry "base" "sensor" ⟨0, 1, 0⟩ qId]
    (by simp) (fun _ => rfl) (by simp) (by simp)
  exact ⟨h.2.1, h.2.2 "cb1" (by simp), h.2.2 "cb2" (by simp)⟩

/-- Claim C10: `addTransforms` on the empty list is a complete no-op: the
`changed` flag stays false, so the frame map and root pointer are returned
unchanged, the callback registry is untouched, and no callback is invoked
(zero notifications, not one). -/
theorem addTransforms_empty_noop (s : TF2State) (cbs : List String)
    (env : String → List CbAction) (fuel : Nat) :
    addTransformsRun s cbs env fuel [] = (s, some (cbs, [])) := rfl

/-- Claim C9 counterexample: notification iterates the *live* `Set`, not a
pre-iteration snapshot.  With `["a","b"]` registered: if `"a"` registers a
new callback `"c"` during the notification, `"c"` is invoked by that same
notification (log `["a","b","c"]`, though `"c"` was not registered when it
started); if `"a"` instead unsubscribes `"b"`, the not-yet-reached `"b"`
is never invoked (log `["a"]`). -/
theorem notification_sees_reentrant_changes :
    notifyRun envAddDuring 10 ["a", "b"] =
      some (["a", "b", "c"], ["a", "b", "c"]) ∧
    ("c" : String) ∉ ["a", "b"] ∧
    notifyRun envRemoveDuring 10 ["a", "b"] = some (["a"], ["a"]) ∧
    ("b" : String) ∈ ["a", "b"] := by
  refine ⟨?_, by decide, ?_, by decide⟩
  · rfl
  · rfl

/-- Claim C9 (amended; see the counterexample above for the original claim):
notification iterates the live callback set.  When no callback modifies
the registration set re-entrantly, exactly the callbacks registered at the
moment the notification starts are invoked, each exactly once, and the
registration set is unchanged afterwards. -/
theorem notify_nonmutating_exact (cbs : List String)
    (env : String → List CbAction) (fuel : Nat)
    (henv : ∀ c, env c = []) (hfuel : cbs.length ≤ fuel) (hnd : cbs.Nodup) :
    notifyRun env fuel cbs = some (cbs, cbs) ∧
    ∀ c ∈ cbs, cbs.count c = 1 := by
  refine ⟨?_, fun c hc => List.count_eq_one_of_mem hnd hc⟩
  rw [notifyRun, notifyRunAux_nonmutating env henv fuel cbs cbs [] hfuel]
  rw [List.nil_append]

/-- Witness for C9 (amended): two non-mutating callbacks are each invoked
exactly once. -/
theorem notify_nonmutating_exact_witness :
    notifyRun (fun _ => []) 7 ["x", "y"] = some (["x", "y"], ["x", "y"]) ∧
    (["x", "y"] : List String).count "x" = 1 := by
  have h := notify_nonmutating_exact ["x", "y"] (fun _ => []) 7
    (fun _ => rfl) (by simp) (by simp)
  exact ⟨h.1, h.2 "x" (by simp)⟩
